import Mathlib

/-!
Shallow embedding of the resource manager in `deadlock.py`
(deadlock avoidance / detection demo).

Python integers are modelled as `ℤ`; Python lists as Lean `List`s.
Indexing `xs[k]` is modelled as `List.getD xs k 0` (the Python code only
ever indexes in bounds; out-of-bounds indexing would raise, and all
theorems below are used on well-formed states where the defaults are
never reached).  Elementwise `for k in range(m)` loops over vectors are
rendered as maps over `List.range m`, which agrees with the in-place
Python loops on lists of length `m`.

The blocking behaviour of `ResourceManager.request` (the `cv.wait`
loop) is concurrency; the embedding models one evaluation of the loop
body, `requestStep`, whose outcomes are: `granted` (the grant path),
`denied` (the synchronous-return-False paths: invalid request, or the
process is not alive / already finished), and `blocked` (the path where
the Python code waits on the condition variable and re-runs the same
body later, or returns False on timeout).  Every grant the Python code
ever performs is a `granted` outcome of `requestStep` from the state
current at that moment.
-/

namespace Deadlock

/-- `v[k]` with Python-style in-bounds semantics (default `0` is never
hit on well-formed input). -/
def getI (v : List ℤ) (k : ℕ) : ℤ := v.getD k 0

/-- Row `i` of a matrix (`a[i]`). -/
def mrow (a : List (List ℤ)) (i : ℕ) : List ℤ := a.getD i []

/-- `a[i][k]`. -/
def mget (a : List (List ℤ)) (i k : ℕ) : ℤ := (a.getD i []).getD k 0

/-- `[a[k] + b[k] for k in range(m)]`. -/
def vadd (m : ℕ) (a b : List ℤ) : List ℤ :=
  (List.range m).map fun k => getI a k + getI b k

/-- `[a[k] - b[k] for k in range(m)]`. -/
def vsub (m : ℕ) (a b : List ℤ) : List ℤ :=
  (List.range m).map fun k => getI a k - getI b k

/-- `all(a[k] <= b[k] for k in range(m))`. -/
def vleq (m : ℕ) (a b : List ℤ) : Bool :=
  (List.range m).all fun k => decide (getI a k ≤ getI b k)

/-- The `--mode` flag: `'avoidance'` or `'detection'`. -/
inductive Mode where
  | avoidance : Mode
  | detection : Mode
deriving DecidableEq, Repr

/-- The mutable state of `ResourceManager` (the lock/condition are
concurrency plumbing and carry no data). -/
structure RMState where
  m : ℕ
  n : ℕ
  total : List ℤ
  available : List ℤ
  maxd : List (List ℤ)
  alloc : List (List ℤ)
  need : List (List ℤ)
  mode : Mode
  alive : List Bool
  finished : List Bool
deriving DecidableEq, Repr

/-- `ResourceManager.__init__`. -/
def initRM (total : List ℤ) (max_demand : List (List ℤ)) (mode : Mode) : RMState :=
  let m := total.length
  let n := max_demand.length
  let alloc := List.replicate n (List.replicate m (0 : ℤ))
  { m := m
    n := n
    total := total
    available := total
    maxd := max_demand
    alloc := alloc
    need := (List.range n).map fun i => (List.range m).map fun k =>
      mget max_demand i k - mget alloc i k
    mode := mode
    alive := List.replicate n true
    finished := List.replicate n false }

/-- `_can_grant`: `all(0 <= req[k] <= self.available[k] for k in range(self.m))`. -/
def canGrant (s : RMState) (req : List ℤ) : Bool :=
  (List.range s.m).all fun k =>
    decide (0 ≤ getI req k) && decide (getI req k ≤ getI s.available k)

/-- `_apply_grant`. -/
def applyGrant (s : RMState) (i : ℕ) (req : List ℤ) : RMState :=
  { s with
    available := vsub s.m s.available req
    alloc := s.alloc.set i (vadd s.m (mrow s.alloc i) req)
    need := s.need.set i (vsub s.m (mrow s.need i) req) }

/-- `_release_all` (the returned `rel` list is only printed). -/
def releaseAll (s : RMState) (i : ℕ) : RMState :=
  { s with
    available := vadd s.m s.available (mrow s.alloc i)
    alloc := s.alloc.set i ((List.range s.m).map fun _ => (0 : ℤ))
    need := s.need.set i ((List.range s.m).map fun k => mget s.maxd i k) }

/-- `mark_finished`. -/
def markFinished (s : RMState) (i : ℕ) : RMState :=
  { s with finished := s.finished.set i true }

/-- `abort`: no-op if not alive, else flip `alive[i]` and release. -/
def abort (s : RMState) (i : ℕ) : RMState :=
  if s.alive.getD i false = false then s
  else { releaseAll s i with alive := s.alive.set i false }

/-- The `finish` initialisation of the Banker's check:
`[self.finished[j] or not self.alive[j] for j in range(self.n)]`. -/
def initFinish (s : RMState) : List Bool :=
  (List.range s.n).map fun j => s.finished.getD j false || !(s.alive.getD j false)

/-- One iteration of the inner `for j in range(self.n)` scan of
`_is_safe_after_grant`; the state is `(work, finish, progress)`. -/
def passStep (m : ℕ) (alloc need : List (List ℤ))
    (st : List ℤ × List Bool × Bool) (j : ℕ) : List ℤ × List Bool × Bool :=
  if st.2.1.getD j false then st
  else if vleq m (mrow need j) st.1 then
    (vadd m st.1 (mrow alloc j), st.2.1.set j true, true)
  else st

/-- One full scan over all processes (`for j in range(self.n)`),
starting with `progress = False`. -/
def bankerPass (m n : ℕ) (alloc need : List (List ℤ))
    (work : List ℤ) (finish : List Bool) : List ℤ × List Bool × Bool :=
  (List.range n).foldl (passStep m alloc need) (work, finish, false)

/-- The `while progress:` loop.  Each productive scan marks at least one
of the `n` finish flags true, so `fuel = n + 1` scans always reach the
scan with no progress; `bankerLoop` stops as the Python loop does when a
scan makes no progress. -/
def bankerLoop (m n : ℕ) (alloc need : List (List ℤ)) :
    ℕ → List ℤ → List Bool → List ℤ × List Bool
  | 0, work, finish => (work, finish)
  | fuel + 1, work, finish =>
    let r := bankerPass m n alloc need work finish
    if r.2.2 then bankerLoop m n alloc need fuel r.1 r.2.1 else (r.1, r.2.1)

/-- The Banker's fixed-point check: run the scan loop, then
`all(finish[j] for j in range(self.n))`. -/
def bankerCheck (m n : ℕ) (work : List ℤ) (alloc need : List (List ℤ))
    (finish : List Bool) : Bool :=
  let r := bankerLoop m n alloc need (n + 1) work finish
  (List.range n).all fun j => r.2.getD j false

/-- The tentative post-grant allocation matrix built by
`_is_safe_after_grant` (`alloc[i][k] += req[k]`). -/
def tentAlloc (s : RMState) (i : ℕ) (req : List ℤ) : List (List ℤ) :=
  s.alloc.set i (vadd s.m (mrow s.alloc i) req)

/-- The tentative post-grant need matrix built by
`_is_safe_after_grant` (`need[i][k] -= req[k]`). -/
def tentNeed (s : RMState) (i : ℕ) (req : List ℤ) : List (List ℤ) :=
  s.need.set i (vsub s.m (mrow s.need i) req)

/-- `_is_safe_after_grant`. -/
def isSafeAfterGrant (s : RMState) (i : ℕ) (req : List ℤ) : Bool :=
  bankerCheck s.m s.n (vsub s.m s.available req)
    (tentAlloc s i req) (tentNeed s i req) (initFinish s)

/-- The Banker's check run from a state itself (the spec's "safety
check run from the resulting state"): `_is_safe_after_grant` with the
tentative request already folded into the state. -/
def isSafeState (s : RMState) : Bool :=
  bankerCheck s.m s.n s.available s.alloc s.need (initFinish s)

/-- The validity test at the top of `request`:
`any(req[k] < 0 or req[k] > self.need[i][k] for k in range(self.m))`. -/
def invalidReq (s : RMState) (i : ℕ) (req : List ℤ) : Bool :=
  (List.range s.m).any fun k =>
    decide (getI req k < 0) || decide (mget s.need i k < getI req k)

/-- Outcome of one evaluation of the body of `request`. -/
inductive ReqRes where
  | granted : ReqRes
  | denied : ReqRes
  | blocked : ReqRes
deriving DecidableEq, Repr

/-- One evaluation of the decision logic of `request` from the current
state: the invalid-request check, the `while self.alive[i] and not
self.finished[i]` guard, then the mode-dependent grant test.  `blocked`
is the branch where the Python code waits on the condition (or returns
`False` once the optional timeout has elapsed). -/
def requestStep (s : RMState) (i : ℕ) (req : List ℤ) : ReqRes × RMState :=
  if invalidReq s i req then (ReqRes.denied, s)
  else if !(s.alive.getD i false) || s.finished.getD i false then (ReqRes.denied, s)
  else if s.mode = Mode.avoidance then
    if canGrant s req && isSafeAfterGrant s i req then
      (ReqRes.granted, applyGrant s i req)
    else (ReqRes.blocked, s)
  else
    if canGrant s req then (ReqRes.granted, applyGrant s i req)
    else (ReqRes.blocked, s)

/-!
Wait-for graph and cycle detection.  Python dicts with keys iterated in
insertion order are modelled as association lists; `graph` always has
keys `0, …, n-1` in order (that is how `build_wait_for_graph` creates
it).  `color` is a total function defaulting to `0` (the Python dict is
keyed by exactly the graph's nodes; the code is only ever run on graphs
whose edges point at keys of the graph, where the two agree).
-/

/-- `graph.get(u, [])`. -/
def lookupRow (g : List (ℕ × List ℕ)) (u : ℕ) : List ℕ :=
  match g.find? fun p => p.1 == u with
  | some p => p.2
  | none => []

/-- `{i: [] for i in range(n)}`. -/
def emptyWFG (n : ℕ) : List (ℕ × List ℕ) :=
  (List.range n).map fun i => (i, ([] : List ℕ))

/-- The two inner loops of `build_wait_for_graph` for one waiting entry
`(i, req)`: for each scarce resource type `k` (`req[k] > available[k]`)
append every other alive, unfinished holder `j` (`alloc[j][k] > 0`) not
already recorded. -/
def wfgInner (s : RMState) (i : ℕ) (req : List ℤ) (row : List ℕ) : List ℕ :=
  (List.range s.m).foldl
    (fun row k =>
      if getI s.available k < getI req k then
        (List.range s.n).foldl
          (fun row j =>
            if decide (i ≠ j) && decide (0 < mget s.alloc j k) &&
               s.alive.getD j false && !(s.finished.getD j false) then
              if j ∈ row then row else row ++ [j]
            else row)
          row
      else row)
    row

/-- Replace row `i` of the graph by `f` applied to it (append-in-place
on `graph[i]`). -/
def updateRow (g : List (ℕ × List ℕ)) (i : ℕ) (f : List ℕ → List ℕ) :
    List (ℕ × List ℕ) :=
  g.map fun p => if p.1 = i then (p.1, f p.2) else p

/-- `build_wait_for_graph`. -/
def build_wait_for_graph (s : RMState) (waiting : List (ℕ × List ℤ)) :
    List (ℕ × List ℕ) :=
  waiting.foldl
    (fun g p =>
      if !(s.alive.getD p.1 false) || s.finished.getD p.1 false then g
      else updateRow g p.1 (wfgInner s p.1 p.2))
    (emptyWFG s.n)

/-- The `for v in graph.get(u, [])` loop of `dfs`: recurse (via
`visit`, the depth-bounded `dfs` one level down) into white neighbours,
and on a grey neighbour that is on the current path return
`stack[stack.index(v):] + [v]`. -/
def dfsNbrs (visit : ℕ → (ℕ → ℕ) → List ℕ → Option (List ℕ) × (ℕ → ℕ) × List ℕ) :
    List ℕ → (ℕ → ℕ) → List ℕ → Option (List ℕ) × (ℕ → ℕ) × List ℕ
  | [], color, stack => (none, color, stack)
  | v :: rest, color, stack =>
    if color v = 0 then
      match visit v color stack with
      | (some cyc, c', st') => (some cyc, c', st')
      | (none, c', st') => dfsNbrs visit rest c' st'
    else if color v = 1 then
      if v ∈ stack then (some (stack.drop (stack.indexOf v) ++ [v]), color, stack)
      else dfsNbrs visit rest color stack
    else dfsNbrs visit rest color stack

/-- The recursive `dfs(u)` of `find_cycle`: colour `u` grey, push it on
the path stack, scan its neighbours, then pop and colour black.  `fuel`
bounds the recursion depth; the DFS only recurses into white nodes, so
the depth never exceeds the number of graph nodes plus one and the fuel
passed by `find_cycle` is never exhausted. -/
def dfsVisit (g : List (ℕ × List ℕ)) :
    ℕ → ℕ → (ℕ → ℕ) → List ℕ → Option (List ℕ) × (ℕ → ℕ) × List ℕ
  | 0, _, color, stack => (none, color, stack)
  | fuel + 1, u, color, stack =>
    let color1 := fun x => if x = u then 1 else color x
    let stack1 := stack ++ [u]
    match dfsNbrs (dfsVisit g fuel) (lookupRow g u) color1 stack1 with
    | (some cyc, c', st') => (some cyc, c', st')
    | (none, c', st') => (none, fun x => if x = u then 2 else c' x, st'.dropLast)

/-- `find_cycle`: run `dfs` from every still-white key in key order and
return the first cycle found. -/
def find_cycle (g : List (ℕ × List ℕ)) : Option (List ℕ) :=
  (g.foldl
    (fun acc p =>
      match acc with
      | (some cyc, c, st) => (some cyc, c, st)
      | (none, c, st) =>
        if c p.1 = 0 then dfsVisit g (g.length + 1) p.1 c st else (none, c, st))
    (((none, fun _ => 0, []) : Option (List ℕ) × (ℕ → ℕ) × List ℕ))).1

/-- `sum(self.alloc[i])`. -/
def allocSum (s : RMState) (i : ℕ) : ℤ := (mrow s.alloc i).sum

/-- Python's `max(l, key=key)`: the first element attaining the maximal
key (later elements replace the current best only when strictly
greater).  `none` on the empty list (where Python raises). -/
def maxByKey (key : ℕ → ℤ) : List ℕ → Option ℕ
  | [] => none
  | x :: xs => some (xs.foldl (fun b y => if key b < key y then y else b) x)

/-- The resolution step of one `detector_loop` tick: build the wait-for
graph, find a cycle, and if one is found pick the victim among
`cyc[:-1]` with the largest total allocation (`max` with key
`alloc_sums.get`). -/
def detectorVictim (s : RMState) (waiting : List (ℕ × List ℤ)) : Option ℕ :=
  match find_cycle (build_wait_for_graph s waiting) with
  | some cyc => maxByKey (fun x => allocSum s x) cyc.dropLast
  | none => none

/-- Shape well-formedness: every vector has length `m`, every matrix
has `n` rows of length `m` (guaranteed by `__init__` in the Python
code). -/
def WF (s : RMState) : Prop :=
  s.total.length = s.m ∧ s.available.length = s.m ∧
  s.maxd.length = s.n ∧ s.alloc.length = s.n ∧ s.need.length = s.n ∧
  s.alive.length = s.n ∧ s.finished.length = s.n ∧
  (∀ i, i < s.n →
    (mrow s.maxd i).length = s.m ∧ (mrow s.alloc i).length = s.m ∧
    (mrow s.need i).length = s.m)

/-- The manager-state invariant of the spec: conservation of every
resource type, allocation bounds, and `need = max - alloc`. -/
def Invariant (s : RMState) : Prop :=
  (∀ k, k < s.m →
    getI s.available k + (Finset.range s.n).sum (fun i => mget s.alloc i k) =
      getI s.total k) ∧
  (∀ i, i < s.n → ∀ k, k < s.m →
    0 ≤ mget s.alloc i k ∧ mget s.alloc i k ≤ mget s.maxd i k ∧
    mget s.need i k = mget s.maxd i k - mget s.alloc i k)

instance (s : RMState) : Decidable (WF s) := by
  unfold WF; infer_instance

instance (s : RMState) : Decidable (Invariant s) := by
  unfold Invariant; infer_instance

/-- The operations of the manager, as a step relation: one evaluation
of the `request` body (whatever its outcome), `release_all`,
`mark_finished`, and `abort`. -/
inductive RMStep : RMState → RMState → Prop where
  | req (s : RMState) (i : ℕ) (req : List ℤ) : RMStep s (requestStep s i req).2
  | release (s : RMState) (i : ℕ) (h : i < s.n) : RMStep s (releaseAll s i)
  | mark (s : RMState) (i : ℕ) (h : i < s.n) : RMStep s (markFinished s i)
  | kill (s : RMState) (i : ℕ) (h : i < s.n) : RMStep s (abort s i)

/-! ### Small indexing lemmas -/

theorem getD_set_self {α : Type} (l : List α) (i : ℕ) (a d : α)
    (h : i < l.length) : (l.set i a).getD i d = a := by
  simp [List.getD_eq_getElem?_getD, List.getElem?_set_eq_of_lt a h]

theorem getD_set_ne {α : Type} (l : List α) (i j : ℕ) (a d : α)
    (h : j ≠ i) : (l.set i a).getD j d = l.getD j d := by
  simp [List.getD_eq_getElem?_getD, List.getElem?_set_ne (fun he => h he.symm)]

theorem getD_of_le {α : Type} (l : List α) (i : ℕ) (d : α)
    (h : l.length ≤ i) : l.getD i d = d := by
  simp [List.getD_eq_getElem?_getD, List.getElem?_eq_none h]

theorem lt_length_of_getD {l : List Bool} {i : ℕ}
    (h : l.getD i false = true) : i < l.length := by
  by_contra hc
  rw [getD_of_le l i false (by omega)] at h
  exact Bool.false_ne_true h

theorem getI_mapRange (f : ℕ → ℤ) {m k : ℕ} (h : k < m) :
    getI ((List.range m).map f) k = f k := by
  simp [getI, List.getD_eq_getElem?_getD, List.getElem?_map, List.getElem?_range h]

theorem getI_vadd (a b : List ℤ) {m k : ℕ} (h : k < m) :
    getI (vadd m a b) k = getI a k + getI b k := getI_mapRange _ h

theorem getI_vsub (a b : List ℤ) {m k : ℕ} (h : k < m) :
    getI (vsub m a b) k = getI a k - getI b k := getI_mapRange _ h

theorem length_vadd (m : ℕ) (a b : List ℤ) : (vadd m a b).length = m := by
  simp [vadd]

theorem length_vsub (m : ℕ) (a b : List ℤ) : (vsub m a b).length = m := by
  simp [vsub]

theorem vleq_iff {m : ℕ} {a b : List ℤ} :
    vleq m a b = true ↔ ∀ k, k < m → getI a k ≤ getI b k := by
  simp [vleq, List.all_eq_true, List.mem_range]

theorem canGrant_iff {s : RMState} {req : List ℤ} :
    canGrant s req = true ↔
      ∀ k, k < s.m → 0 ≤ getI req k ∧ getI req k ≤ getI s.available k := by
  simp [canGrant, List.all_eq_true, List.mem_range]

theorem invalidReq_eq_false {s : RMState} {i : ℕ} {req : List ℤ} :
    invalidReq s i req = false ↔
      ∀ k, k < s.m → 0 ≤ getI req k ∧ getI req k ≤ mget s.need i k := by
  rw [← Bool.not_eq_true]
  simp only [invalidReq, List.any_eq_true, List.mem_range, not_exists, not_and,
    Bool.or_eq_true, decide_eq_true_eq, not_or, not_lt]

/-- Inversion of a granted evaluation of the `request` body: the
request was valid, the process alive and unfinished, the request fit in
`available`, the state advanced by `_apply_grant`, and in avoidance
mode the tentative safety check passed. -/
theorem requestStep_granted_inv (s : RMState) (i : ℕ) (req : List ℤ)
    (hg : (requestStep s i req).1 = ReqRes.granted) :
    (requestStep s i req).2 = applyGrant s i req ∧
    invalidReq s i req = false ∧
    s.alive.getD i false = true ∧ s.finished.getD i false = false ∧
    canGrant s req = true ∧
    (s.mode = Mode.avoidance → isSafeAfterGrant s i req = true) := by
  unfold requestStep at hg ⊢
  by_cases h1 : invalidReq s i req = true
  · rw [if_pos h1] at hg; exact ReqRes.noConfusion hg
  rw [if_neg h1] at hg ⊢
  by_cases h2 : (!(s.alive.getD i false) || s.finished.getD i false) = true
  · rw [if_pos h2] at hg; exact ReqRes.noConfusion hg
  rw [if_neg h2] at hg ⊢
  have h1' : invalidReq s i req = false := Bool.not_eq_true _ |>.mp h1
  have h2' : s.alive.getD i false = true ∧ s.finished.getD i false = false := by
    cases ha : s.alive.getD i false
    · refine absurd ?_ h2; rw [ha]; rfl
    · cases hb : s.finished.getD i false
      · exact ⟨rfl, rfl⟩
      · refine absurd ?_ h2; rw [ha, hb]; rfl
  by_cases hm : s.mode = Mode.avoidance
  · rw [if_pos hm] at hg ⊢
    by_cases h3 : (canGrant s req && isSafeAfterGrant s i req) = true
    · rw [if_pos h3] at hg ⊢
      rcases Bool.and_eq_true _ _ |>.mp h3 with ⟨hc, hs⟩
      exact ⟨rfl, h1', h2'.1, h2'.2, hc, fun _ => hs⟩
    · rw [if_neg h3] at hg; exact ReqRes.noConfusion hg
  · rw [if_neg hm] at hg ⊢
    by_cases h3 : canGrant s req = true
    · rw [if_pos h3] at hg ⊢
      exact ⟨rfl, h1', h2'.1, h2'.2, h3, fun hmm => absurd hmm hm⟩
    · rw [if_neg h3] at hg; exact ReqRes.noConfusion hg

theorem getD_mapRange {α : Type} (f : ℕ → α) (d : α) {n i : ℕ} (h : i < n) :
    ((List.range n).map f).getD i d = f i := by
  simp [List.getD_eq_getElem?_getD, List.getElem?_map, List.getElem?_range h]

theorem getD_replicate {α : Type} (a d : α) {n i : ℕ} (h : i < n) :
    (List.replicate n a).getD i d = a := by
  simp [List.getD_eq_getElem?_getD, List.getElem?_replicate, h]

theorem mget_set_self (a : List (List ℤ)) (i k : ℕ) (r : List ℤ)
    (h : i < a.length) : mget (a.set i r) i k = r.getD k 0 := by
  unfold mget
  rw [getD_set_self _ _ _ _ h]

theorem mget_set_ne (a : List (List ℤ)) {i j : ℕ} (k : ℕ) (r : List ℤ)
    (h : j ≠ i) : mget (a.set i r) j k = mget a j k := by
  unfold mget
  rw [getD_set_ne _ _ _ _ _ h]

/-- If the body of `request` does not grant, the state is unchanged. -/
theorem requestStep_not_granted (s : RMState) (i : ℕ) (req : List ℤ)
    (h : (requestStep s i req).1 ≠ ReqRes.granted) :
    (requestStep s i req).2 = s := by
  unfold requestStep at h ⊢
  by_cases h1 : invalidReq s i req = true
  · rw [if_pos h1]
  rw [if_neg h1] at h ⊢
  by_cases h2 : (!(s.alive.getD i false) || s.finished.getD i false) = true
  · rw [if_pos h2]
  rw [if_neg h2] at h ⊢
  by_cases hm : s.mode = Mode.avoidance
  · rw [if_pos hm] at h ⊢
    by_cases h3 : (canGrant s req && isSafeAfterGrant s i req) = true
    · rw [if_pos h3] at h; exact absurd rfl h
    · rw [if_neg h3]
  · rw [if_neg hm] at h ⊢
    by_cases h3 : canGrant s req = true
    · rw [if_pos h3] at h; exact absurd rfl h
    · rw [if_neg h3]

/-! ### Concrete states used by the witnesses and counterexamples.

`sAvoid` is the spec's avoidance scenario (`total=[3,3,2]`, two
processes).  `sTwo`/`wTwo` is the spec's two-process detection
deadlock.  `sThree`/`wThree` is a three-process detection state whose
wait-for graph is `{0:[2], 1:[2], 2:[1]}`. -/

def sAvoid : RMState :=
  { m := 3, n := 2, total := [3, 3, 2], available := [3, 3, 2],
    maxd := [[3, 0, 0], [0, 3, 2]], alloc := [[0, 0, 0], [0, 0, 0]],
    need := [[3, 0, 0], [0, 3, 2]], mode := Mode.avoidance,
    alive := [true, true], finished := [false, false] }

def sTwo : RMState :=
  { m := 2, n := 2, total := [1, 1], available := [0, 0],
    maxd := [[1, 1], [1, 1]], alloc := [[1, 0], [0, 1]],
    need := [[0, 1], [1, 0]], mode := Mode.detection,
    alive := [true, true], finished := [false, false] }

def wTwo : List (ℕ × List ℤ) := [(0, [0, 1]), (1, [1, 0])]

def sThree : RMState :=
  { m := 2, n := 3, total := [1, 1], available := [0, 0],
    maxd := [[1, 1], [1, 1], [1, 1]], alloc := [[0, 0], [1, 0], [0, 1]],
    need := [[1, 1], [0, 1], [1, 0]], mode := Mode.detection,
    alive := [true, true, true], finished := [false, false, false] }

def wThree : List (ℕ × List ℤ) := [(0, [0, 1]), (1, [0, 1]), (2, [1, 0])]

/-! ### Preservation of the state invariant (used by C2) -/

@[simp] theorem applyGrant_m (s : RMState) (i : ℕ) (req : List ℤ) :
    (applyGrant s i req).m = s.m := rfl

@[simp] theorem applyGrant_n (s : RMState) (i : ℕ) (req : List ℤ) :
    (applyGrant s i req).n = s.n := rfl

@[simp] theorem applyGrant_total (s : RMState) (i : ℕ) (req : List ℤ) :
    (applyGrant s i req).total = s.total := rfl

@[simp] theorem applyGrant_maxd (s : RMState) (i : ℕ) (req : List ℤ) :
    (applyGrant s i req).maxd = s.maxd := rfl

@[simp] theorem releaseAll_m (s : RMState) (i : ℕ) :
    (releaseAll s i).m = s.m := rfl

@[simp] theorem releaseAll_n (s : RMState) (i : ℕ) :
    (releaseAll s i).n = s.n := rfl

@[simp] theorem releaseAll_total (s : RMState) (i : ℕ) :
    (releaseAll s i).total = s.total := rfl

@[simp] theorem releaseAll_maxd (s : RMState) (i : ℕ) :
    (releaseAll s i).maxd = s.maxd := rfl

/-- A live process index is in range (alive flags have length `n`). -/
theorem lt_n_of_alive {s : RMState} {i : ℕ} (hwf : WF s)
    (h : s.alive.getD i false = true) : i < s.n := by
  have := lt_length_of_getD h
  have hlen := hwf.2.2.2.2.2.1
  omega

/-- Unfolding `abort` on a live process. -/
theorem abort_of_alive {s : RMState} {i : ℕ}
    (h : s.alive.getD i false = true) :
    abort s i = { releaseAll s i with alive := s.alive.set i false } := by
  unfold abort
  rw [if_neg (show ¬(s.alive.getD i false = false) by rw [h]; decide)]

theorem preserved_applyGrant (s : RMState) (i : ℕ) (req : List ℤ)
    (hwf : WF s) (hinv : Invariant s) (hi : i < s.n)
    (hval : ∀ k, k < s.m → 0 ≤ getI req k ∧ getI req k ≤ mget s.need i k) :
    WF (applyGrant s i req) ∧ Invariant (applyGrant s i req) := by
  obtain ⟨ht, ha, hm, hal, hne, hlv, hlf, hrows⟩ := hwf
  have hial : i < s.alloc.length := by omega
  have hine : i < s.need.length := by omega
  constructor
  · refine ⟨ht, length_vsub _ _ _, hm, ?_, ?_, hlv, hlf, ?_⟩
    · show (s.alloc.set i _).length = s.n
      rw [List.length_set]; exact hal
    · show (s.need.set i _).length = s.n
      rw [List.length_set]; exact hne
    · intro j hj
      obtain ⟨h1, h2, h3⟩ := hrows j hj
      refine ⟨h1, ?_, ?_⟩
      · show (mrow (s.alloc.set i _) j).length = s.m
        by_cases hji : j = i
        · subst hji
          unfold mrow; rw [getD_set_self _ _ _ _ hial]
          exact length_vadd _ _ _
        · unfold mrow; rw [getD_set_ne _ _ _ _ _ hji]; exact h2
      · show (mrow (s.need.set i _) j).length = s.m
        by_cases hji : j = i
        · subst hji
          unfold mrow; rw [getD_set_self _ _ _ _ hine]
          exact length_vsub _ _ _
        · unfold mrow; rw [getD_set_ne _ _ _ _ _ hji]; exact h3
  · constructor
    · intro k hk
      simp only [applyGrant_m, applyGrant_n, applyGrant_total] at hk ⊢
      have hrw : ∀ j ∈ Finset.range s.n,
          mget (applyGrant s i req).alloc j k =
            mget s.alloc j k + (if j = i then getI req k else 0) := by
        intro j _
        by_cases hji : j = i
        · subst hji
          show mget (s.alloc.set j (vadd s.m (mrow s.alloc j) req)) j k = _
          rw [mget_set_self _ _ _ _ hial, if_pos rfl]
          exact getI_vadd _ _ hk
        · show mget (s.alloc.set i _) j k = _
          rw [mget_set_ne _ _ _ hji, if_neg hji, add_zero]
      have hsum : (Finset.range s.n).sum
            (fun j => mget (applyGrant s i req).alloc j k) =
          (Finset.range s.n).sum (fun j => mget s.alloc j k) + getI req k := by
        rw [Finset.sum_congr rfl hrw, Finset.sum_add_distrib,
          Finset.sum_ite_eq' (Finset.range s.n) i fun _ => getI req k,
          if_pos (Finset.mem_range.mpr hi)]
      show getI (vsub s.m s.available req) k +
        (Finset.range s.n).sum (fun j => mget (applyGrant s i req).alloc j k) =
          getI s.total k
      rw [getI_vsub _ _ hk, hsum]
      have hc := hinv.1 k hk
      omega
    · intro j hj k hk
      simp only [applyGrant_m, applyGrant_n, applyGrant_maxd] at hj hk ⊢
      obtain ⟨hge, hle, hnd⟩ := hinv.2 j hj k hk
      by_cases hji : j = i
      · subst hji
        obtain ⟨hv0, hv1⟩ := hval k hk
        have hea : mget (applyGrant s j req).alloc j k =
            mget s.alloc j k + getI req k := by
          show mget (s.alloc.set j (vadd s.m (mrow s.alloc j) req)) j k = _
          rw [mget_set_self _ _ _ _ hial]
          exact getI_vadd _ _ hk
        have hen : mget (applyGrant s j req).need j k =
            mget s.need j k - getI req k := by
          show mget (s.need.set j (vsub s.m (mrow s.need j) req)) j k = _
          rw [mget_set_self _ _ _ _ hine]
          exact getI_vsub _ _ hk
        refine ⟨?_, ?_, ?_⟩
        · rw [hea]; omega
        · rw [hea]; omega
        · rw [hen, hea]; omega
      · have hea : mget (applyGrant s i req).alloc j k = mget s.alloc j k :=
          mget_set_ne _ _ _ hji
        have hen : mget (applyGrant s i req).need j k = mget s.need j k :=
          mget_set_ne _ _ _ hji
        exact ⟨by rw [hea]; exact hge, by rw [hea]; exact hle,
          by rw [hen, hea]; exact hnd⟩

theorem preserved_releaseAll (s : RMState) (i : ℕ)
    (hwf : WF s) (hinv : Invariant s) (hi : i < s.n) :
    WF (releaseAll s i) ∧ Invariant (releaseAll s i) := by
  obtain ⟨ht, ha, hm, hal, hne, hlv, hlf, hrows⟩ := hwf
  have hial : i < s.alloc.length := by omega
  have hine : i < s.need.length := by omega
  constructor
  · refine ⟨ht, length_vadd _ _ _, hm, ?_, ?_, hlv, hlf, ?_⟩
    · show (s.alloc.set i _).length = s.n
      rw [List.length_set]; exact hal
    · show (s.need.set i _).length = s.n
      rw [List.length_set]; exact hne
    · intro j hj
      obtain ⟨h1, h2, h3⟩ := hrows j hj
      refine ⟨h1, ?_, ?_⟩
      · show (mrow (s.alloc.set i _) j).length = s.m
        by_cases hji : j = i
        · subst hji
          unfold mrow; rw [getD_set_self _ _ _ _ hial]; simp
        · unfold mrow; rw [getD_set_ne _ _ _ _ _ hji]; exact h2
      · show (mrow (s.need.set i _) j).length = s.m
        by_cases hji : j = i
        · subst hji
          unfold mrow; rw [getD_set_self _ _ _ _ hine]; simp
        · unfold mrow; rw [getD_set_ne _ _ _ _ _ hji]; exact h3
  · constructor
    · intro k hk
      simp only [releaseAll_m, releaseAll_n, releaseAll_total] at hk ⊢
      have hrw : ∀ j ∈ Finset.range s.n,
          mget (releaseAll s i).alloc j k =
            mget s.alloc j k - (if j = i then mget s.alloc i k else 0) := by
        intro j _
        by_cases hji : j = i
        · subst hji
          show mget (s.alloc.set j _) j k = _
          rw [mget_set_self _ _ _ _ hial, if_pos rfl]
          by_cases hkm : k < s.m
          · rw [getD_mapRange _ _ hkm]; omega
          · rw [getD_of_le _ _ _ (by simp; omega)]
            have : mget s.alloc j k = 0 := by
              have h2 := (hrows j hi).2.1
              unfold mget
              rw [getD_of_le _ _ _ (by rw [show (s.alloc.getD j []) = mrow s.alloc j from rfl, h2]; omega)]
            omega
        · show mget (s.alloc.set i _) j k = _
          rw [mget_set_ne _ _ _ hji, if_neg hji]; omega
      have hsum : (Finset.range s.n).sum
            (fun j => mget (releaseAll s i).alloc j k) =
          (Finset.range s.n).sum (fun j => mget s.alloc j k) -
            mget s.alloc i k := by
        rw [Finset.sum_congr rfl hrw, Finset.sum_sub_distrib,
          Finset.sum_ite_eq' (Finset.range s.n) i fun _ => mget s.alloc i k,
          if_pos (Finset.mem_range.mpr hi)]
      show getI (vadd s.m s.available (mrow s.alloc i)) k +
        (Finset.range s.n).sum (fun j => mget (releaseAll s i).alloc j k) =
          getI s.total k
      rw [getI_vadd _ _ hk, hsum]
      have hmr : getI (mrow s.alloc i) k = mget s.alloc i k := rfl
      rw [hmr]
      have hc := hinv.1 k hk
      omega
    · intro j hj k hk
      simp only [releaseAll_m, releaseAll_n, releaseAll_maxd] at hj hk ⊢
      obtain ⟨hge, hle, hnd⟩ := hinv.2 j hj k hk
      by_cases hji : j = i
      · subst hji
        have hea : mget (releaseAll s j).alloc j k = 0 := by
          show mget (s.alloc.set j _) j k = 0
          rw [mget_set_self _ _ _ _ hial]
          by_cases hkm : k < s.m
          · exact getD_mapRange _ _ hkm
          · exact getD_of_le _ _ _ (by simp; omega)
        have hen : mget (releaseAll s j).need j k = mget s.maxd j k := by
          show mget (s.need.set j _) j k = _
          rw [mget_set_self _ _ _ _ hine]
          exact getD_mapRange _ _ hk
        exact ⟨by rw [hea], by rw [hea]; omega, by rw [hen, hea]; omega⟩
      · have hea : mget (releaseAll s i).alloc j k = mget s.alloc j k :=
          mget_set_ne _ _ _ hji
        have hen : mget (releaseAll s i).need j k = mget s.need j k :=
          mget_set_ne _ _ _ hji
        exact ⟨by rw [hea]; exact hge, by rw [hea]; exact hle,
          by rw [hen, hea]; exact hnd⟩

theorem init_WF_Invariant (total : List ℤ) (maxd : List (List ℤ)) (mode : Mode)
    (hrows : ∀ i, i < maxd.length → (maxd.getD i []).length = total.length)
    (hpos : ∀ i, i < maxd.length → ∀ k, k < total.length → 0 ≤ mget maxd i k) :
    WF (initRM total maxd mode) ∧ Invariant (initRM total maxd mode) := by
  have hz : ∀ i k, mget (List.replicate maxd.length
      (List.replicate total.length (0 : ℤ))) i k = 0 := by
    intro i k
    unfold mget
    by_cases hi : i < maxd.length
    · rw [getD_replicate _ _ hi]
      by_cases hk : k < total.length
      · rw [getD_replicate _ _ hk]
      · rw [getD_of_le _ _ _ (by simp; omega)]
    · rw [show (List.replicate maxd.length
          (List.replicate total.length (0 : ℤ))).getD i [] = [] from
        getD_of_le _ _ _ (by simp; omega)]
      rfl
  constructor
  · refine ⟨rfl, rfl, rfl, by simp [initRM], by simp [initRM], by simp [initRM],
      by simp [initRM], ?_⟩
    intro i hi
    have hi : i < maxd.length := hi
    refine ⟨hrows i hi, ?_, ?_⟩
    · show (mrow (List.replicate maxd.length _) i).length = total.length
      unfold mrow
      rw [getD_replicate _ _ hi]
      simp
    · show (mrow ((List.range maxd.length).map _) i).length = total.length
      unfold mrow
      rw [getD_mapRange _ _ hi]
      simp
  · constructor
    · intro k hk
      show getI total k + (Finset.range maxd.length).sum
        (fun i => mget (initRM total maxd mode).alloc i k) = getI total k
      have hs : (Finset.range maxd.length).sum
          (fun i => mget (initRM total maxd mode).alloc i k) = 0 := by
        refine Finset.sum_eq_zero fun i _ => ?_
        exact hz i k
      rw [hs, add_zero]
    · intro i hi k hk
      have hi : i < maxd.length := hi
      have hk : k < total.length := hk
      have hzi := hz i k
      have heq : mget (initRM total maxd mode).need i k =
          mget maxd i k - mget (initRM total maxd mode).alloc i k := by
        show mget ((List.range maxd.length).map _) i k = _
        unfold mget
        rw [getD_mapRange _ _ hi, getD_mapRange _ _ hk]
        rfl
      refine ⟨?_, ?_, heq⟩
      · show 0 ≤ mget (List.replicate _ _) i k
        rw [hz i k]
      · show mget (List.replicate _ _) i k ≤ _
        rw [hz i k]
        exact hpos i hi k hk

/-! ### C2: the invariant holds initially and is preserved -/

/-- C2: the conservation law `available + Σ alloc = total`, the bounds
`0 ≤ alloc ≤ max` and `need = max - alloc` hold in the initial state
(for well-shaped, non-negative demand matrices) and are preserved by
every operation of the manager: any evaluation of the `request` body
(in particular any grant), `release_all`, `mark_finished` and
`abort`. -/
theorem c2_invariant_preserved :
    (∀ (total : List ℤ) (maxd : List (List ℤ)) (mode : Mode),
      (∀ i, i < maxd.length → (maxd.getD i []).length = total.length) →
      (∀ i, i < maxd.length → ∀ k, k < total.length → 0 ≤ mget maxd i k) →
      WF (initRM total maxd mode) ∧ Invariant (initRM total maxd mode)) ∧
    (∀ s s', WF s → Invariant s → RMStep s s' → WF s' ∧ Invariant s') := by
  refine ⟨init_WF_Invariant, fun s s' hwf hinv hstep => ?_⟩
  cases hstep with
  | req i r =>
    by_cases hg : (requestStep s i r).1 = ReqRes.granted
    · obtain ⟨hpost, hinvreq, halive, -, -, -⟩ := requestStep_granted_inv s i r hg
      rw [hpost]
      exact preserved_applyGrant s i r hwf hinv (lt_n_of_alive hwf halive)
        (invalidReq_eq_false.mp hinvreq)
    · rw [requestStep_not_granted s i r hg]
      exact ⟨hwf, hinv⟩
  | release i hi => exact preserved_releaseAll s i hwf hinv hi
  | mark i hi =>
    obtain ⟨ht, ha, hm, hal, hne, hlv, hlf, hrows⟩ := hwf
    refine ⟨⟨ht, ha, hm, hal, hne, hlv, ?_, hrows⟩, hinv⟩
    show (s.finished.set i true).length = s.n
    rw [List.length_set]; exact hlf
  | kill i hi =>
    by_cases halive : s.alive.getD i false = false
    · unfold abort
      rw [if_pos halive]
      exact ⟨hwf, hinv⟩
    · have htrue : s.alive.getD i false = true := by
        cases hv : s.alive.getD i false
        · exact absurd hv halive
        · rfl
      rw [abort_of_alive htrue]
      obtain ⟨hwf', hinv'⟩ := preserved_releaseAll s i hwf hinv hi
      obtain ⟨ht, ha, hm, hal, hne, hlv, hlf, hrows⟩ := hwf'
      refine ⟨⟨ht, ha, hm, hal, hne, ?_, hlf, hrows⟩, hinv'⟩
      show (s.alive.set i false).length = s.n
      rw [List.length_set]
      exact hwf.2.2.2.2.2.1

/-- Witness for C2: the invariant holds in the initial avoidance
scenario and is preserved by marking process 0 of the two-process
state finished. -/
theorem c2_witness :
    (WF (initRM [3, 3, 2] [[3, 0, 0], [0, 3, 2]] Mode.avoidance) ∧
      Invariant (initRM [3, 3, 2] [[3, 0, 0], [0, 3, 2]] Mode.avoidance)) ∧
    (WF (markFinished sTwo 0) ∧ Invariant (markFinished sTwo 0)) :=
  ⟨c2_invariant_preserved.1 [3, 3, 2] [[3, 0, 0], [0, 3, 2]] Mode.avoidance
      (by decide) (by decide),
   c2_invariant_preserved.2 sTwo (markFinished sTwo 0) (by decide) (by decide)
      (RMStep.mark sTwo 0 (by decide))⟩

/-! ### C1: grants in avoidance mode leave a safe state -/

/-- The tentative Banker's check evaluates exactly the post-grant
state: `_apply_grant` performs the same `available - req` /
`alloc[i] + req` / `need[i] - req` adjustments the check simulated. -/
theorem isSafeState_applyGrant (s : RMState) (i : ℕ) (req : List ℤ) :
    isSafeState (applyGrant s i req) = isSafeAfterGrant s i req := rfl

/-- C1: in avoidance mode, whenever one evaluation of the `request`
body grants `req` to process `i`, the Banker's safety check run from
the resulting manager state reports safe. -/
theorem c1_avoidance_grant_safe (s : RMState) (i : ℕ) (req : List ℤ)
    (hmode : s.mode = Mode.avoidance)
    (hg : (requestStep s i req).1 = ReqRes.granted) :
    isSafeState (requestStep s i req).2 = true := by
  obtain ⟨hpost, -, -, -, -, hsafe⟩ := requestStep_granted_inv s i req hg
  rw [hpost, isSafeState_applyGrant]
  exact hsafe hmode

/-- Witness for C1: in the spec's avoidance scenario, process 0's
request `[2,0,0]` is granted and the resulting state is safe. -/
theorem c1_witness :
    sAvoid.mode = Mode.avoidance ∧
    (requestStep sAvoid 0 [2, 0, 0]).1 = ReqRes.granted ∧
    isSafeState (requestStep sAvoid 0 [2, 0, 0]).2 = true :=
  ⟨rfl, by decide, c1_avoidance_grant_safe sAvoid 0 [2, 0, 0] rfl (by decide)⟩

/-! ### C7: invalid requests are denied synchronously, state unchanged -/

/-- C7: a request with a negative component or one exceeding the
process's current need is denied at once — the body returns `False`
without touching the state and without reaching the wait on the
condition variable (so the timeout argument is never consulted). -/
theorem c7_invalid_request_denied (s : RMState) (i : ℕ) (req : List ℤ)
    (h : ∃ k, k < s.m ∧ (getI req k < 0 ∨ mget s.need i k < getI req k)) :
    requestStep s i req = (ReqRes.denied, s) := by
  have hinv : invalidReq s i req = true := by
    rcases h with ⟨k, hk, hbad⟩
    simp only [invalidReq, List.any_eq_true, List.mem_range]
    exact ⟨k, hk, by rcases hbad with hb | hb <;> simp [hb]⟩
  unfold requestStep
  rw [if_pos hinv]

/-- Witness for C7: the request `[-1,0,0]` is invalid in the avoidance
scenario and is denied with the state unchanged. -/
theorem c7_witness :
    (∃ k, k < sAvoid.m ∧
      (getI [-1, 0, 0] k < 0 ∨ mget sAvoid.need 0 k < getI [-1, 0, 0] k)) ∧
    requestStep sAvoid 0 [-1, 0, 0] = (ReqRes.denied, sAvoid) :=
  ⟨⟨0, by decide, Or.inl (by decide)⟩,
   c7_invalid_request_denied sAvoid 0 [-1, 0, 0] ⟨0, by decide, Or.inl (by decide)⟩⟩

/-! ### C10: requests by dead or finished processes are denied, state unchanged -/

/-- C10: if `alive[i]` is already false or `finished[i]` already true,
the body of `request` returns `False` without waiting on the condition
(either at the validity check or because the `while` guard fails at
once) and the state is unchanged, for every request vector and
timeout. -/
theorem c10_dead_or_finished_denied (s : RMState) (i : ℕ) (req : List ℤ)
    (h : s.alive.getD i false = false ∨ s.finished.getD i false = true) :
    requestStep s i req = (ReqRes.denied, s) := by
  unfold requestStep
  by_cases h1 : invalidReq s i req = true
  · rw [if_pos h1]
  · rw [if_neg h1]
    have h2 : (!(s.alive.getD i false) || s.finished.getD i false) = true := by
      rcases h with h | h
      · rw [h]; rfl
      · rw [h, Bool.or_true]
    rw [if_pos h2]

/-- Witness for C10: process 0 of `sDead` is not alive; its (otherwise
grantable) request is denied and the state unchanged. -/
theorem c10_witness :
    ((sTwo.alive.set 0 false).getD 0 false = false ∨
      sTwo.finished.getD 0 false = true) ∧
    requestStep { sTwo with alive := sTwo.alive.set 0 false } 0 [0, 1] =
      (ReqRes.denied, { sTwo with alive := sTwo.alive.set 0 false }) :=
  ⟨Or.inl (by decide),
   c10_dead_or_finished_denied { sTwo with alive := sTwo.alive.set 0 false } 0
     [0, 1] (Or.inl (by decide))⟩

/-! ### C9: abort is idempotent -/

/-- C9: `abort` is a no-op on a non-alive process, so two consecutive
aborts equal one; and a first abort of a live process flips `alive[i]`
and otherwise performs exactly the `release_all` state change. -/
theorem c9_abort_idempotent (s : RMState) (i : ℕ) :
    abort (abort s i) i = abort s i ∧
    (s.alive.getD i false = true →
      abort s i = { releaseAll s i with alive := s.alive.set i false }) := by
  have habort : s.alive.getD i false = true →
      abort s i = { releaseAll s i with alive := s.alive.set i false } := by
    intro h
    unfold abort
    rw [if_neg (show ¬(s.alive.getD i false = false) by rw [h]; decide)]
  refine ⟨?_, habort⟩
  by_cases h : s.alive.getD i false = false
  · unfold abort
    rw [if_pos h, if_pos h]
  · have htrue : s.alive.getD i false = true := by
      cases hv : s.alive.getD i false
      · exact absurd hv h
      · rfl
    have hi : i < s.alive.length := lt_length_of_getD htrue
    rw [habort htrue]
    have h2 : (s.alive.set i false).getD i false = false :=
      getD_set_self s.alive i false false hi
    unfold abort
    exact if_pos h2

/-- Witness for C9: aborting process 0 of the two-process deadlock
state twice equals aborting it once, and the single abort performs the
`release_all` change plus the `alive` flip. -/
theorem c9_witness :
    abort (abort sTwo 0) 0 = abort sTwo 0 ∧
    abort sTwo 0 = { releaseAll sTwo 0 with alive := sTwo.alive.set 0 false } :=
  ⟨(c9_abort_idempotent sTwo 0).1, (c9_abort_idempotent sTwo 0).2 (by decide)⟩

/-! ### C8: release_all postcondition -/

/-- C8: right after `release_all(i)`, process `i` holds nothing and its
need is restored to its declared maximum, the released units are back
in `available`, and nothing else — other rows, the `max` matrix, the
liveness flags, `total` — changes. -/
theorem c8_release_all_spec (s : RMState) (i : ℕ) (hwf : WF s) (hi : i < s.n) :
    (∀ k, k < s.m →
      mget (releaseAll s i).alloc i k = 0 ∧
      mget (releaseAll s i).need i k = mget s.maxd i k ∧
      getI (releaseAll s i).available k = getI s.available k + mget s.alloc i k) ∧
    (∀ j, j ≠ i →
      mrow (releaseAll s i).alloc j = mrow s.alloc j ∧
      mrow (releaseAll s i).need j = mrow s.need j) ∧
    (releaseAll s i).maxd = s.maxd ∧
    (releaseAll s i).alive = s.alive ∧
    (releaseAll s i).finished = s.finished ∧
    (releaseAll s i).total = s.total := by
  obtain ⟨-, -, -, hal, hne, -, -, -⟩ := hwf
  refine ⟨fun k hk => ⟨?_, ?_, ?_⟩, fun j hj => ⟨?_, ?_⟩, rfl, rfl, rfl, rfl⟩
  · show ((s.alloc.set i _).getD i []).getD k 0 = 0
    rw [getD_set_self _ _ _ _ (by omega)]
    exact getI_mapRange _ hk
  · show ((s.need.set i _).getD i []).getD k 0 = _
    rw [getD_set_self _ _ _ _ (by omega)]
    exact getI_mapRange _ hk
  · exact getI_vadd _ _ hk
  · show (s.alloc.set i _).getD j [] = s.alloc.getD j []
    exact getD_set_ne _ _ _ _ _ hj
  · show (s.need.set i _).getD j [] = s.need.getD j []
    exact getD_set_ne _ _ _ _ _ hj

/-- Witness for C8: `release_all` of process 0 in the two-process
deadlock state. -/
theorem c8_witness :
    WF sTwo ∧ 0 < sTwo.n ∧
    (∀ k, k < sTwo.m →
      mget (releaseAll sTwo 0).alloc 0 k = 0 ∧
      mget (releaseAll sTwo 0).need 0 k = mget sTwo.maxd 0 k ∧
      getI (releaseAll sTwo 0).available k =
        getI sTwo.available k + mget sTwo.alloc 0 k) :=
  ⟨by decide, by decide,
   fun k hk => ((c8_release_all_spec sTwo 0 (by decide) (by decide)).1 k hk)⟩

/-! ### C5: the wait-for graph edge characterisation -/

theorem updateRow_map_fst (g : List (ℕ × List ℕ)) (i : ℕ)
    (f : List ℕ → List ℕ) :
    (updateRow g i f).map Prod.fst = g.map Prod.fst := by
  unfold updateRow
  rw [List.map_map]
  refine List.map_congr_left fun p _ => ?_
  by_cases hp : p.1 = i
  · rw [Function.comp_apply, if_pos hp]
  · rw [Function.comp_apply, if_neg hp]

theorem lookupRow_of_not_mem (g : List (ℕ × List ℕ)) (i : ℕ)
    (h : i ∉ g.map Prod.fst) : lookupRow g i = [] := by
  unfold lookupRow
  rw [List.find?_eq_none.mpr]
  intro p hp
  simp only [beq_iff_eq]
  intro hpi
  exact h (List.mem_map.mpr ⟨p, hp, hpi⟩)

theorem lookupRow_updateRow_ne (g : List (ℕ × List ℕ)) (i j : ℕ)
    (f : List ℕ → List ℕ) (h : j ≠ i) :
    lookupRow (updateRow g i f) j = lookupRow g j := by
  unfold lookupRow updateRow
  rw [List.find?_map]
  have hpred : ((fun p : ℕ × List ℕ => p.1 == j) ∘
      (fun p : ℕ × List ℕ => if p.1 = i then (p.1, f p.2) else p)) =
      fun p : ℕ × List ℕ => p.1 == j := by
    funext p
    by_cases hp : p.1 = i <;> simp [hp]
  rw [hpred]
  cases hf : g.find? (fun p => p.1 == j) with
  | none => rfl
  | some p =>
    have hpj : p.1 = j := by simpa using List.find?_some hf
    simp only [Option.map_some']
    rw [if_neg (by rw [hpj]; exact h)]

theorem lookupRow_updateRow_self (g : List (ℕ × List ℕ)) (i : ℕ)
    (f : List ℕ → List ℕ) (h : i ∈ g.map Prod.fst) :
    lookupRow (updateRow g i f) i = f (lookupRow g i) := by
  unfold lookupRow updateRow
  rw [List.find?_map]
  have hpred : ((fun p : ℕ × List ℕ => p.1 == i) ∘
      (fun p : ℕ × List ℕ => if p.1 = i then (p.1, f p.2) else p)) =
      fun p : ℕ × List ℕ => p.1 == i := by
    funext p
    by_cases hp : p.1 = i <;> simp [hp]
  rw [hpred]
  cases hf : g.find? (fun p => p.1 == i) with
  | none =>
    obtain ⟨p, hp, hpi⟩ := List.mem_map.mp h
    have := List.find?_eq_none.mp hf p hp
    simp [hpi] at this
  | some p =>
    have hpi : p.1 = i := by simpa using List.find?_some hf
    simp only [Option.map_some']
    rw [if_pos hpi]

theorem emptyWFG_map_fst (n : ℕ) : (emptyWFG n).map Prod.fst = List.range n := by
  unfold emptyWFG
  rw [List.map_map]
  exact List.map_id _

theorem lookupRow_emptyWFG (n i : ℕ) : lookupRow (emptyWFG n) i = [] := by
  unfold lookupRow
  cases hf : (emptyWFG n).find? (fun p => p.1 == i) with
  | none => rfl
  | some p =>
    have hp := List.mem_of_find?_eq_some hf
    unfold emptyWFG at hp
    obtain ⟨i', -, rfl⟩ := List.mem_map.mp hp
    rfl

/-- Membership in the `for j in range(self.n)` holder scan. -/
theorem mem_inner_fold (s : RMState) (i k : ℕ) (l : List ℕ) (row : List ℕ)
    (x : ℕ) :
    x ∈ l.foldl (fun row j =>
        if decide (i ≠ j) && decide (0 < mget s.alloc j k) &&
           s.alive.getD j false && !(s.finished.getD j false) then
          if j ∈ row then row else row ++ [j]
        else row) row ↔
      x ∈ row ∨ (x ∈ l ∧
        (decide (i ≠ x) && decide (0 < mget s.alloc x k) &&
         s.alive.getD x false && !(s.finished.getD x false)) = true) := by
  induction l generalizing row with
  | nil => simp
  | cons v t ih =>
    simp only [List.foldl_cons]
    by_cases hv : (decide (i ≠ v) && decide (0 < mget s.alloc v k) &&
        s.alive.getD v false && !(s.finished.getD v false)) = true
    · rw [if_pos hv]
      by_cases hmem : v ∈ row
      · rw [if_pos hmem, ih]
        constructor
        · rintro (h | h)
          · exact Or.inl h
          · exact Or.inr ⟨List.mem_cons_of_mem _ h.1, h.2⟩
        · rintro (h | ⟨hx, hc⟩)
          · exact Or.inl h
          · rcases List.mem_cons.mp hx with rfl | hx'
            · exact Or.inl hmem
            · exact Or.inr ⟨hx', hc⟩
      · rw [if_neg hmem, ih]
        constructor
        · rintro (h | h)
          · rcases List.mem_append.mp h with h' | h'
            · exact Or.inl h'
            · rw [List.mem_singleton.mp h']
              exact Or.inr ⟨List.mem_cons_self _ _, hv⟩
          · exact Or.inr ⟨List.mem_cons_of_mem _ h.1, h.2⟩
        · rintro (h | ⟨hx, hc⟩)
          · exact Or.inl (List.mem_append.mpr (Or.inl h))
          · rcases List.mem_cons.mp hx with rfl | hx'
            · exact Or.inl (List.mem_append.mpr (Or.inr (List.mem_singleton.mpr rfl)))
            · exact Or.inr ⟨hx', hc⟩
    · rw [if_neg hv, ih]
      constructor
      · rintro (h | h)
        · exact Or.inl h
        · exact Or.inr ⟨List.mem_cons_of_mem _ h.1, h.2⟩
      · rintro (h | ⟨hx, hc⟩)
        · exact Or.inl h
        · rcases List.mem_cons.mp hx with rfl | hx'
          · exact absurd hc hv
          · exact Or.inr ⟨hx', hc⟩

/-- Membership in the scarce-resource scan of `build_wait_for_graph`. -/
theorem mem_outer_fold (s : RMState) (i : ℕ) (req : List ℤ) (l : List ℕ)
    (row : List ℕ) (x : ℕ) :
    x ∈ l.foldl (fun row k =>
        if getI s.available k < getI req k then
          (List.range s.n).foldl (fun row j =>
            if decide (i ≠ j) && decide (0 < mget s.alloc j k) &&
               s.alive.getD j false && !(s.finished.getD j false) then
              if j ∈ row then row else row ++ [j]
            else row) row
        else row) row ↔
      x ∈ row ∨ ∃ k, k ∈ l ∧ getI s.available k < getI req k ∧ x ∈ List.range s.n ∧
        (decide (i ≠ x) && decide (0 < mget s.alloc x k) &&
         s.alive.getD x false && !(s.finished.getD x false)) = true := by
  induction l generalizing row with
  | nil => simp
  | cons v t ih =>
    simp only [List.foldl_cons]
    by_cases hv : getI s.available v < getI req v
    · rw [if_pos hv, ih]
      rw [mem_inner_fold]
      constructor
      · rintro ((h | h) | ⟨k, hk, h1, h2, h3⟩)
        · exact Or.inl h
        · exact Or.inr ⟨v, List.mem_cons_self _ _, hv, h.1, h.2⟩
        · exact Or.inr ⟨k, List.mem_cons_of_mem _ hk, h1, h2, h3⟩
      · rintro (h | ⟨k, hk, h1, h2, h3⟩)
        · exact Or.inl (Or.inl h)
        · rcases List.mem_cons.mp hk with rfl | hk'
          · exact Or.inl (Or.inr ⟨h2, h3⟩)
          · exact Or.inr ⟨k, hk', h1, h2, h3⟩
    · rw [if_neg hv, ih]
      constructor
      · rintro (h | ⟨k, hk, h1, h2, h3⟩)
        · exact Or.inl h
        · exact Or.inr ⟨k, List.mem_cons_of_mem _ hk, h1, h2, h3⟩
      · rintro (h | ⟨k, hk, h1, h2, h3⟩)
        · exact Or.inl h
        · rcases List.mem_cons.mp hk with rfl | hk'
          · exact absurd h1 hv
          · exact Or.inr ⟨k, hk', h1, h2, h3⟩

/-- Membership in one waiting entry's edge list. -/
theorem mem_wfgInner (s : RMState) (i : ℕ) (req : List ℤ) (row : List ℕ)
    (x : ℕ) :
    x ∈ wfgInner s i req row ↔
      x ∈ row ∨ ∃ k, k < s.m ∧ getI s.available k < getI req k ∧ x < s.n ∧
        i ≠ x ∧ 0 < mget s.alloc x k ∧
        s.alive.getD x false = true ∧ s.finished.getD x false = false := by
  unfold wfgInner
  rw [mem_outer_fold]
  constructor
  · rintro (h | ⟨k, hk, h1, h2, h3⟩)
    · exact Or.inl h
    · simp only [Bool.and_eq_true, decide_eq_true_eq, Bool.not_eq_true'] at h3
      exact Or.inr ⟨k, List.mem_range.mp hk, h1, List.mem_range.mp h2,
        h3.1.1.1, h3.1.1.2, h3.1.2, h3.2⟩
  · rintro (h | ⟨k, hk, h1, h2, h3, h4, h5, h6⟩)
    · exact Or.inl h
    · refine Or.inr ⟨k, List.mem_range.mpr hk, h1, List.mem_range.mpr h2, ?_⟩
      simp only [Bool.and_eq_true, decide_eq_true_eq, Bool.not_eq_true']
      exact ⟨⟨⟨h3, h4⟩, h5⟩, h6⟩

/-- Rows untouched by any entry of the waiting list keep their value. -/
theorem foldl_build_no_touch (s : RMState) (l : List (ℕ × List ℤ))
    (g : List (ℕ × List ℕ)) (i : ℕ) (h : ∀ p ∈ l, p.1 ≠ i) :
    lookupRow (l.foldl
      (fun g p =>
        if !(s.alive.getD p.1 false) || s.finished.getD p.1 false then g
        else updateRow g p.1 (wfgInner s p.1 p.2)) g) i = lookupRow g i := by
  induction l generalizing g with
  | nil => rfl
  | cons a t ih =>
    simp only [List.foldl_cons]
    rw [ih _ fun p hp => h p (List.mem_cons_of_mem _ hp)]
    by_cases ha : (!(s.alive.getD a.1 false) || s.finished.getD a.1 false) = true
    · rw [if_pos ha]
    · rw [if_neg ha]
      exact lookupRow_updateRow_ne _ _ _ _ fun he =>
        h a (List.mem_cons_self _ _) he.symm

theorem foldl_build_map_fst (s : RMState) (l : List (ℕ × List ℤ))
    (g : List (ℕ × List ℕ)) :
    (l.foldl
      (fun g p =>
        if !(s.alive.getD p.1 false) || s.finished.getD p.1 false then g
        else updateRow g p.1 (wfgInner s p.1 p.2)) g).map Prod.fst =
      g.map Prod.fst := by
  induction l generalizing g with
  | nil => rfl
  | cons a t ih =>
    simp only [List.foldl_cons]
    rw [ih]
    by_cases ha : (!(s.alive.getD a.1 false) || s.finished.getD a.1 false) = true
    · rw [if_pos ha]
    · rw [if_neg ha, updateRow_map_fst]

/-- Row `i` of the graph built from a waiting list with distinct keys:
membership characterisation, relative to an accumulator whose row `i`
is still empty. -/
theorem mem_build_aux (s : RMState) (l : List (ℕ × List ℤ))
    (g : List (ℕ × List ℕ)) (i j : ℕ)
    (hkeys : g.map Prod.fst = List.range s.n)
    (hrow : lookupRow g i = [])
    (hnd : (l.map Prod.fst).Nodup) :
    j ∈ lookupRow (l.foldl
      (fun g p =>
        if !(s.alive.getD p.1 false) || s.finished.getD p.1 false then g
        else updateRow g p.1 (wfgInner s p.1 p.2)) g) i ↔
      ∃ req, (i, req) ∈ l ∧ s.alive.getD i false = true ∧
        s.finished.getD i false = false ∧ i < s.n ∧ j ∈ wfgInner s i req [] := by
  induction l generalizing g with
  | nil => simp [hrow]
  | cons a t ih =>
    rw [List.map_cons] at hnd
    obtain ⟨hhd, hnd'⟩ := List.nodup_cons.mp hnd
    simp only [List.foldl_cons]
    by_cases hai : a.1 = i
    · -- the head is the (unique) entry for row `i`
      by_cases ha : (!(s.alive.getD a.1 false) || s.finished.getD a.1 false) = true
      · rw [if_pos ha]
        rw [foldl_build_no_touch s t g i
          (fun p hp he => hhd (by rw [hai, ← he]; exact List.mem_map_of_mem _ hp)),
          hrow]
        simp only [List.not_mem_nil, false_iff]
        rintro ⟨req, hmem, halive, hfin, -, -⟩
        rcases List.mem_cons.mp hmem with rfl | hmem'
        · rw [hai, halive, hfin] at ha
          exact absurd ha (by decide)
        · exact hhd (by rw [hai]; exact List.mem_map_of_mem _ hmem')
      · rw [if_neg ha]
        have halive : s.alive.getD i false = true := by
          rcases Bool.or_eq_false_iff.mp (Bool.not_eq_true _ |>.mp ha) with ⟨h1, -⟩
          rw [hai] at h1
          cases hv : s.alive.getD i false
          · rw [hv] at h1; exact Bool.noConfusion h1
          · rfl
        have hfin : s.finished.getD i false = false := by
          rcases Bool.or_eq_false_iff.mp (Bool.not_eq_true _ |>.mp ha) with ⟨-, h2⟩
          rw [hai] at h2; exact h2
        rw [foldl_build_no_touch s t _ i
          (fun p hp he => hhd (by rw [hai, ← he]; exact List.mem_map_of_mem _ hp))]
        have hea : ((i : ℕ), a.2) = a := by rw [← hai]
        by_cases hin : i < s.n
        · have hmemk : i ∈ g.map Prod.fst := by
            rw [hkeys]; exact List.mem_range.mpr hin
          rw [hai, lookupRow_updateRow_self _ _ _ hmemk, hrow]
          constructor
          · intro hj
            exact ⟨a.2, by rw [hea]; exact List.mem_cons_self a t,
              halive, hfin, hin, hj⟩
          · rintro ⟨req, hmem, -, -, -, hj⟩
            rcases List.mem_cons.mp hmem with heq | hmem'
            · have : req = a.2 := by
                have := congrArg Prod.snd heq
                simpa using this
              rw [← this]
              exact hj
            · exact absurd (by rw [hai]; exact List.mem_map_of_mem _ hmem') hhd
        · have hnotk : i ∉ g.map Prod.fst := by
            rw [hkeys]; intro hmem; exact hin (List.mem_range.mp hmem)
          rw [hai, lookupRow_of_not_mem _ _ (by
            rw [updateRow_map_fst]; exact hnotk)]
          simp only [List.not_mem_nil, false_iff]
          rintro ⟨req, -, -, -, hin', -⟩
          exact hin hin'
    · -- head belongs to a different row
      have hstep : lookupRow
          (if !(s.alive.getD a.1 false) || s.finished.getD a.1 false then g
           else updateRow g a.1 (wfgInner s a.1 a.2)) i = [] := by
        by_cases ha : (!(s.alive.getD a.1 false) || s.finished.getD a.1 false) = true
        · rw [if_pos ha]; exact hrow
        · rw [if_neg ha, lookupRow_updateRow_ne _ _ _ _ fun he => hai he.symm]
          exact hrow
      have hstepk : (if !(s.alive.getD a.1 false) || s.finished.getD a.1 false then g
           else updateRow g a.1 (wfgInner s a.1 a.2)).map Prod.fst =
          List.range s.n := by
        by_cases ha : (!(s.alive.getD a.1 false) || s.finished.getD a.1 false) = true
        · rw [if_pos ha]; exact hkeys
        · rw [if_neg ha, updateRow_map_fst]; exact hkeys
      rw [ih _ hstepk hstep hnd']
      constructor
      · rintro ⟨req, hmem, h1, h2, h3, h4⟩
        exact ⟨req, List.mem_cons_of_mem _ hmem, h1, h2, h3, h4⟩
      · rintro ⟨req, hmem, h1, h2, h3, h4⟩
        rcases List.mem_cons.mp hmem with heq | hmem'
        · exact absurd (congrArg Prod.fst heq).symm hai
        · exact ⟨req, hmem', h1, h2, h3, h4⟩

/-- C5: the wait-for graph contains edge `i → j` exactly when `i` has a
waiting entry `req`, `i` is alive and unfinished, and for some resource
type `k` the request exceeds availability (`req[k] > available[k]`)
while `j ≠ i` is an alive, unfinished holder (`alloc[j][k] > 0`); and in
the spec's two-process deadlock scenario the graph is exactly
`0 → 1, 1 → 0`. -/
theorem c5_wait_for_graph :
    (∀ (s : RMState) (waiting : List (ℕ × List ℤ)), WF s →
      (waiting.map Prod.fst).Nodup → ∀ i j : ℕ,
      (j ∈ lookupRow (build_wait_for_graph s waiting) i ↔
        ∃ req, (i, req) ∈ waiting ∧
          s.alive.getD i false = true ∧ s.finished.getD i false = false ∧
          ∃ k, k < s.m ∧ getI s.available k < getI req k ∧ i ≠ j ∧
            s.alive.getD j false = true ∧ s.finished.getD j false = false ∧
            0 < mget s.alloc j k)) ∧
    lookupRow (build_wait_for_graph sTwo wTwo) 0 = [1] ∧
    lookupRow (build_wait_for_graph sTwo wTwo) 1 = [0] := by
  refine ⟨fun s waiting hwf hnd i j => ?_, by decide, by decide⟩
  unfold build_wait_for_graph
  rw [mem_build_aux s waiting (emptyWFG s.n) i j (emptyWFG_map_fst s.n)
    (lookupRow_emptyWFG s.n i) hnd]
  constructor
  · rintro ⟨req, hmem, h1, h2, h3, hj⟩
    rcases (mem_wfgInner s i req [] j).mp hj with h | ⟨k, hk, hs, hjn, hij, hpos, haj, hfj⟩
    · exact absurd h (List.not_mem_nil j)
    · exact ⟨req, hmem, h1, h2, k, hk, hs, hij, haj, hfj, hpos⟩
  · rintro ⟨req, hmem, h1, h2, k, hk, hs, hij, haj, hfj, hpos⟩
    exact ⟨req, hmem, h1, h2, lt_n_of_alive hwf h1,
      (mem_wfgInner s i req [] j).mpr
        (Or.inr ⟨k, hk, hs, lt_n_of_alive hwf haj, hij, hpos, haj, hfj⟩)⟩

/-- Witness for C5: in the two-process deadlock scenario the edge
characterisation holds, instantiated at the edge `0 → 1`. -/
theorem c5_witness :
    WF sTwo ∧ (wTwo.map Prod.fst).Nodup ∧
    (1 ∈ lookupRow (build_wait_for_graph sTwo wTwo) 0 ↔
      ∃ req, ((0 : ℕ), req) ∈ wTwo ∧
        sTwo.alive.getD 0 false = true ∧ sTwo.finished.getD 0 false = false ∧
        ∃ k, k < sTwo.m ∧ getI sTwo.available k < getI req k ∧ (0 : ℕ) ≠ 1 ∧
          sTwo.alive.getD 1 false = true ∧ sTwo.finished.getD 1 false = false ∧
          0 < mget sTwo.alloc 1 k) :=
  ⟨by decide, by decide, c5_wait_for_graph.1 sTwo wTwo (by decide) (by decide) 0 1⟩

/-! ### C4: find_cycle -/

/-- Any cycle produced by the neighbour scan closes its loop (first
node equals last node) and has at least two entries, assuming the
recursive visits it delegates to do so. -/
theorem dfsNbrs_shape
    (visit : ℕ → (ℕ → ℕ) → List ℕ → Option (List ℕ) × (ℕ → ℕ) × List ℕ)
    (hvisit : ∀ v c st cyc c' st', visit v c st = (some cyc, c', st') →
      cyc.head? = cyc.getLast? ∧ 2 ≤ cyc.length) :
    ∀ (vs : List ℕ) (color : ℕ → ℕ) (stack cyc : List ℕ)
      (c' : ℕ → ℕ) (st' : List ℕ),
      dfsNbrs visit vs color stack = (some cyc, c', st') →
      cyc.head? = cyc.getLast? ∧ 2 ≤ cyc.length := by
  intro vs
  induction vs with
  | nil =>
    intro color stack cyc c' st' h
    simp [dfsNbrs] at h
  | cons v rest ih =>
    intro color stack cyc c' st' h
    rw [dfsNbrs] at h
    by_cases h0 : color v = 0
    · rw [if_pos h0] at h
      rcases hvv : visit v color stack with ⟨o, c2, s2⟩
      rw [hvv] at h
      cases o with
      | some a =>
        have : a = cyc := by
          have := congrArg Prod.fst h
          simpa using this
        rw [← this]
        exact hvisit v color stack a c2 s2 hvv
      | none => exact ih _ _ _ _ _ h
    · rw [if_neg h0] at h
      by_cases h1 : color v = 1
      · rw [if_pos h1] at h
        by_cases h2 : v ∈ stack
        · rw [if_pos h2] at h
          have hcyc : stack.drop (stack.indexOf v) ++ [v] = cyc := by
            have := congrArg Prod.fst h
            simpa using this
          rw [← hcyc]
          have hidx : stack.indexOf v < stack.length := List.indexOf_lt_length.mpr h2
          have hne : stack.drop (stack.indexOf v) ≠ [] := by
            intro hd
            have := List.length_drop (stack.indexOf v) stack
            rw [hd] at this
            simp at this
            omega
          constructor
          · rw [List.head?_append_of_ne_nil _ hne, List.getLast?_concat,
              List.head?_drop]
            rw [List.getElem?_eq_getElem hidx, List.getElem_indexOf hidx]
          · have := List.length_drop (stack.indexOf v) stack
            rw [List.length_append]
            simp only [List.length_singleton]
            omega
        · rw [if_neg h2] at h
          exact ih _ _ _ _ _ h
      · rw [if_neg h1] at h
        exact ih _ _ _ _ _ h

/-- Any cycle produced by `dfs` closes its loop and has at least two
entries. -/
theorem dfsVisit_shape (g : List (ℕ × List ℕ)) :
    ∀ (fuel u : ℕ) (color : ℕ → ℕ) (stack cyc : List ℕ)
      (c' : ℕ → ℕ) (st' : List ℕ),
      dfsVisit g fuel u color stack = (some cyc, c', st') →
      cyc.head? = cyc.getLast? ∧ 2 ≤ cyc.length := by
  intro fuel
  induction fuel with
  | zero =>
    intro u color stack cyc c' st' h
    simp [dfsVisit] at h
  | succ f ih =>
    intro u color stack cyc c' st' h
    rw [dfsVisit] at h
    rcases hnn : dfsNbrs (dfsVisit g f) (lookupRow g u)
        (fun x => if x = u then 1 else color x) (stack ++ [u]) with ⟨o, c2, s2⟩
    rw [hnn] at h
    cases o with
    | some a =>
      have : a = cyc := by
        have := congrArg Prod.fst h
        simpa using this
      rw [← this]
      exact dfsNbrs_shape (dfsVisit g f)
        (fun v c st cyc0 c0 st0 hv => ih v c st cyc0 c0 st0 hv)
        _ _ _ _ _ _ hnn
    | none =>
      have := congrArg Prod.fst h
      simp at this

/-- Any cycle returned by `find_cycle` closes its loop and has at
least two entries. -/
theorem find_cycle_shape (g : List (ℕ × List ℕ)) (c : List ℕ)
    (h : find_cycle g = some c) : c.head? = c.getLast? ∧ 2 ≤ c.length := by
  unfold find_cycle at h
  have haux : ∀ (l : List (ℕ × List ℕ))
      (acc : Option (List ℕ) × (ℕ → ℕ) × List ℕ),
      (∀ cyc, acc.1 = some cyc → cyc.head? = cyc.getLast? ∧ 2 ≤ cyc.length) →
      ∀ cyc, (l.foldl
        (fun acc p =>
          match acc with
          | (some cyc, c, st) => (some cyc, c, st)
          | (none, c, st) =>
            if c p.1 = 0 then dfsVisit g (g.length + 1) p.1 c st
            else (none, c, st)) acc).1 = some cyc →
        cyc.head? = cyc.getLast? ∧ 2 ≤ cyc.length := by
    intro l
    induction l with
    | nil => intro acc hacc cyc hc; exact hacc cyc hc
    | cons p t ih =>
      intro acc hacc cyc hc
      rw [List.foldl_cons] at hc
      refine ih _ ?_ cyc hc
      rcases acc with ⟨o, co, sto⟩
      cases o with
      | some a => exact fun cyc0 h0 => hacc cyc0 h0
      | none =>
        intro cyc0 h0
        have h1 : (if co p.1 = 0 then dfsVisit g (g.length + 1) p.1 co sto
            else (none, co, sto)).1 = some cyc0 := h0
        by_cases hcol : co p.1 = 0
        · rw [if_pos hcol] at h1
          rcases hvv : dfsVisit g (g.length + 1) p.1 co sto with ⟨o2, c2, s2⟩
          rw [hvv] at h1
          cases o2 with
          | some a2 =>
            have : a2 = cyc0 := by simpa using h1
            rw [← this]
            exact dfsVisit_shape g _ _ _ _ _ _ _ hvv
          | none => exact absurd h1 (by simp)
        · rw [if_neg hcol] at h1
          exact absurd h1 (by simp)
  exact haux g _ (fun cyc hc => absurd hc (by simp)) c h

/-- C4 counterexample: on the graph `{0:[1], 1:[2], 2:[0]}` the
function returns `[0, 1, 2, 0]` — the cycle with its starting node
repeated at the end — which has length four and therefore is not a
rotation of `[0, 1, 2]` (the rotations are `[0,1,2]`, `[1,2,0]`,
`[2,0,1]`). -/
theorem c4_counterexample :
    find_cycle [(0, [1]), (1, [2]), (2, [0])] = some [0, 1, 2, 0] ∧
    find_cycle [(0, [1]), (1, [2]), (2, [0])] ≠ some [0, 1, 2] ∧
    find_cycle [(0, [1]), (1, [2]), (2, [0])] ≠ some [1, 2, 0] ∧
    find_cycle [(0, [1]), (1, [2]), (2, [0])] ≠ some [2, 0, 1] := by
  refine ⟨by decide, by decide, by decide, by decide⟩

/-- C4 amended: on `{0:[1], 1:[2], 2:[0]}` `find_cycle` returns a
rotation of `[0,1,2]` with its first node appended again at the end
(concretely `[0,1,2] ++ [0]`); on `{0:[1], 1:[2], 2:[]}` it returns
none; and in general a returned cycle is the suffix of the path stack
from the re-encountered node's first occurrence through the current
node, followed by that node once more — so it closes its loop (first
element equals last) and has at least two entries.  The result is a
function of the graph alone, hence deterministic. -/
theorem c4_find_cycle_amended :
    find_cycle [(0, [1]), (1, [2]), (2, [0])] = some ([0, 1, 2] ++ [0]) ∧
    find_cycle [(0, [1]), (1, [2]), (2, [])] = none ∧
    (∀ g c, find_cycle g = some c → c.head? = c.getLast? ∧ 2 ≤ c.length) :=
  ⟨by decide, by decide, find_cycle_shape⟩

/-- Witness for C4 (amended): the closure property evaluated on the
three-cycle graph. -/
theorem c4_witness :
    find_cycle [(0, [1]), (1, [2]), (2, [0])] = some [0, 1, 2, 0] ∧
    (([0, 1, 2, 0] : List ℕ).head? = ([0, 1, 2, 0] : List ℕ).getLast? ∧
      2 ≤ ([0, 1, 2, 0] : List ℕ).length) :=
  ⟨by decide,
   c4_find_cycle_amended.2.2 [(0, [1]), (1, [2]), (2, [0])] [0, 1, 2, 0] (by decide)⟩

/-! ### C6: victim selection -/

/-- Specification of the running-maximum fold of Python's `max`: the
result is in the list, no element has a strictly larger key, and every
element strictly before the result's position has a strictly smaller
key (Python's `max` keeps the first maximum). -/
theorem foldl_max_spec (key : ℕ → ℤ) (t : List ℕ) (b : ℕ) :
    (t.foldl (fun b y => if key b < key y then y else b) b) ∈ b :: t ∧
    key b ≤ key (t.foldl (fun b y => if key b < key y then y else b) b) ∧
    (∀ u ∈ t, key u ≤ key (t.foldl (fun b y => if key b < key y then y else b) b)) ∧
    ∃ p q, b :: t = p ++ (t.foldl (fun b y => if key b < key y then y else b) b) :: q ∧
      ∀ u ∈ p, key u < key (t.foldl (fun b y => if key b < key y then y else b) b) := by
  induction t generalizing b with
  | nil =>
    exact ⟨List.mem_cons_self _ _, le_refl _,
      fun u hu => absurd hu (List.not_mem_nil u),
      [], [], rfl, fun u hu => absurd hu (List.not_mem_nil u)⟩
  | cons y t ih =>
    simp only [List.foldl_cons]
    by_cases hb : key b < key y
    · rw [if_pos hb]
      obtain ⟨hmem, hble, hall, p, q, hsplit, hstrict⟩ := ih y
      refine ⟨List.mem_cons_of_mem b hmem, le_trans (le_of_lt hb) hble, ?_, ?_⟩
      · intro u hu
        rcases List.mem_cons.mp hu with rfl | hu'
        · exact hble
        · exact hall u hu'
      · refine ⟨b :: p, q, ?_, ?_⟩
        · rw [List.cons_append, ← hsplit]
        · intro u hu
          rcases List.mem_cons.mp hu with rfl | hu'
          · exact lt_of_lt_of_le hb hble
          · exact hstrict u hu'
    · rw [if_neg hb]
      obtain ⟨hmem, hble, hall, p, q, hsplit, hstrict⟩ := ih b
      refine ⟨?_, hble, ?_, ?_⟩
      · rcases List.mem_cons.mp hmem with h | h
        · exact List.mem_cons.mpr (Or.inl h)
        · exact List.mem_cons.mpr (Or.inr (List.mem_cons_of_mem y h))
      · intro u hu
        rcases List.mem_cons.mp hu with rfl | hu'
        · exact le_trans (le_of_not_lt hb) hble
        · exact hall u hu'
      · cases p with
        | nil =>
          injection hsplit with hbr ht
          refine ⟨[], y :: t, ?_, ?_⟩
          · exact congrArg (fun z => z :: y :: t) hbr
          · intro u hu
            exact absurd hu (List.not_mem_nil u)
        | cons hd p₂ =>
          rw [List.cons_append] at hsplit
          injection hsplit with hbr ht
          refine ⟨b :: y :: p₂, q, ?_, ?_⟩
          · exact congrArg (fun z => b :: y :: z) ht
          · intro u hu
            have hbp : key b < key (t.foldl (fun b y => if key b < key y then y else b) b) :=
              hstrict b (by rw [hbr]; exact List.mem_cons_self _ _)
            rcases List.mem_cons.mp hu with rfl | hu'
            · exact hbp
            · rcases List.mem_cons.mp hu' with rfl | hu''
              · exact lt_of_le_of_lt (le_of_not_lt hb) hbp
              · exact hstrict u (List.mem_cons_of_mem _ hu'')

/-- Python's `max(l, key=...)` returns the first element attaining the
maximal key. -/
theorem maxByKey_first_max (key : ℕ → ℤ) (l : List ℕ) (v : ℕ)
    (h : maxByKey key l = some v) :
    v ∈ l ∧ (∀ u ∈ l, key u ≤ key v) ∧
    ∃ p q, l = p ++ v :: q ∧ ∀ u ∈ p, key u < key v := by
  cases l with
  | nil => exact absurd h (by simp [maxByKey])
  | cons x xs =>
    have hv : xs.foldl (fun b y => if key b < key y then y else b) x = v := by
      simpa [maxByKey] using h
    obtain ⟨hmem, hxle, hall, p, q, hsplit, hstrict⟩ := foldl_max_spec key xs x
    rw [hv] at hmem hxle hall hsplit hstrict
    refine ⟨hmem, ?_, p, q, hsplit, hstrict⟩
    intro u hu
    rcases List.mem_cons.mp hu with rfl | hu'
    · exact hxle
    · exact hall u hu'

/-- C6 counterexample: in `sThree`/`wThree` the wait-for graph is
`{0:[2], 1:[2], 2:[1]}`, the detected cycle is `[2, 1, 2]` (members 2
and 1), processes 1 and 2 hold equal total allocations, yet the victim
is process 2, not the lowest id 1 — the tie is broken by position in
the cycle, not by lowest process id. -/
theorem c6_counterexample :
    detectorVictim sThree wThree = some 2 ∧
    detectorVictim sThree wThree ≠ some 1 ∧
    find_cycle (build_wait_for_graph sThree wThree) = some [2, 1, 2] ∧
    allocSum sThree 1 = allocSum sThree 2 := by
  refine ⟨by decide, by decide, by decide, by decide⟩

/-- C6 amended: the victim is a member of the detected cycle with the
largest total current allocation, and ties are broken deterministically
by the earliest position in the cycle list returned by `find_cycle`
(which need not be the lowest process id); in the spec's two-process
deadlock scenario with equal allocations the victim is process 0. -/
theorem c6_victim_amended :
    (∀ (s : RMState) (waiting : List (ℕ × List ℤ)) (cyc : List ℕ) (v : ℕ),
      find_cycle (build_wait_for_graph s waiting) = some cyc →
      detectorVictim s waiting = some v →
      v ∈ cyc.dropLast ∧ (∀ u ∈ cyc.dropLast, allocSum s u ≤ allocSum s v) ∧
      ∃ p q, cyc.dropLast = p ++ v :: q ∧
        ∀ u ∈ p, allocSum s u < allocSum s v) ∧
    detectorVictim sTwo wTwo = some 0 := by
  refine ⟨fun s waiting cyc v hcyc hvic => ?_, by decide⟩
  unfold detectorVictim at hvic
  rw [hcyc] at hvic
  exact maxByKey_first_max _ _ _ hvic

/-- Witness for C6 (amended): the two-process deadlock scenario, cycle
`[0, 1, 0]`, victim process 0. -/
theorem c6_witness :
    find_cycle (build_wait_for_graph sTwo wTwo) = some [0, 1, 0] ∧
    detectorVictim sTwo wTwo = some 0 ∧
    (0 ∈ ([0, 1, 0] : List ℕ).dropLast ∧
      (∀ u ∈ ([0, 1, 0] : List ℕ).dropLast, allocSum sTwo u ≤ allocSum sTwo 0) ∧
      ∃ p q, ([0, 1, 0] : List ℕ).dropLast = p ++ 0 :: q ∧
        ∀ u ∈ p, allocSum sTwo u < allocSum sTwo 0) :=
  ⟨by decide, by decide,
   c6_victim_amended.1 sTwo wTwo [0, 1, 0] 0 (by decide) (by decide)⟩

/-! ### C3: the Banker's check equals the existence of a completion order

The spec side: "a state is safe if some completion order exists in
which every process can eventually obtain its remaining need".
`chainOKb` checks one candidate order: starting from `work`, each
process in turn must have its (tentative) need covered, after which its
(tentative) allocation is folded back into `work`.  `isCompletionOrder`
additionally demands that the order lists exactly the processes whose
initial `finish` flag is false (the unfinished-and-alive ones). -/

/-- Work vector after the processes of `ord` have finished in turn. -/
def chainWork (m : ℕ) (alloc : List (List ℤ)) : List ℤ → List ℕ → List ℤ
  | work, [] => work
  | work, j :: rest => chainWork m alloc (vadd m work (mrow alloc j)) rest

/-- The candidate order is feasible from `work`. -/
def chainOKb (m : ℕ) (alloc need : List (List ℤ)) : List ℤ → List ℕ → Bool
  | _, [] => true
  | work, j :: rest =>
    vleq m (mrow need j) work &&
      chainOKb m alloc need (vadd m work (mrow alloc j)) rest

/-- Stated from the spec: a completion order enumerates, without
repetition, exactly the processes not initially finished, and is
feasible from the initial work vector. -/
def isCompletionOrder (m n : ℕ) (alloc need : List (List ℤ)) (work : List ℤ)
    (finish0 : List Bool) (ord : List ℕ) : Prop :=
  ord.Nodup ∧ (∀ j, j ∈ ord ↔ j < n ∧ finish0.getD j false = false) ∧
  chainOKb m alloc need work ord = true

/-- Finish flags after marking the processes of `ord` finished. -/
def setTrue (finish : List Bool) (ord : List ℕ) : List Bool :=
  ord.foldl (fun f j => f.set j true) finish

/-- The greedy scan extends `(work, finish)` to `(work', finish')`
along some feasible order of previously unfinished processes. -/
def Extends (m n : ℕ) (alloc need : List (List ℤ)) (work : List ℤ)
    (finish : List Bool) (work' : List ℤ) (finish' : List Bool) : Prop :=
  ∃ ord : List ℕ, ord.Nodup ∧
    (∀ j ∈ ord, j < n ∧ finish.getD j false = false) ∧
    chainOKb m alloc need work ord = true ∧
    work' = chainWork m alloc work ord ∧
    finish' = setTrue finish ord

theorem chainWork_append (m : ℕ) (alloc : List (List ℤ)) (w : List ℤ)
    (o1 o2 : List ℕ) :
    chainWork m alloc w (o1 ++ o2) =
      chainWork m alloc (chainWork m alloc w o1) o2 := by
  induction o1 generalizing w with
  | nil => rfl
  | cons j t ih => exact ih (vadd m w (mrow alloc j))

theorem chainOKb_append (m : ℕ) (alloc need : List (List ℤ)) (w : List ℤ)
    (o1 o2 : List ℕ) :
    chainOKb m alloc need w (o1 ++ o2) =
      (chainOKb m alloc need w o1 &&
        chainOKb m alloc need (chainWork m alloc w o1) o2) := by
  induction o1 generalizing w with
  | nil => rfl
  | cons j t ih =>
    show (vleq m (mrow need j) w &&
      chainOKb m alloc need (vadd m w (mrow alloc j)) (t ++ o2)) = _
    rw [ih (vadd m w (mrow alloc j))]
    show _ = ((vleq m (mrow need j) w &&
        chainOKb m alloc need (vadd m w (mrow alloc j)) t) &&
      chainOKb m alloc need (chainWork m alloc (vadd m w (mrow alloc j)) t) o2)
    rw [Bool.and_assoc]

theorem setTrue_append (f : List Bool) (o1 o2 : List ℕ) :
    setTrue f (o1 ++ o2) = setTrue (setTrue f o1) o2 := by
  unfold setTrue
  rw [List.foldl_append]

theorem setTrue_length (f : List Bool) (ord : List ℕ) :
    (setTrue f ord).length = f.length := by
  induction ord generalizing f with
  | nil => rfl
  | cons a t ih =>
    show (setTrue (f.set a true) t).length = f.length
    rw [ih, List.length_set]

theorem setTrue_getD (f : List Bool) (ord : List ℕ) (j : ℕ)
    (hlt : ∀ x ∈ ord, x < f.length) :
    (setTrue f ord).getD j false = (f.getD j false || decide (j ∈ ord)) := by
  induction ord generalizing f with
  | nil => simp [setTrue]
  | cons a t ih =>
    show (setTrue (f.set a true) t).getD j false = _
    rw [ih _ (fun x hx => by rw [List.length_set]; exact hlt x (List.mem_cons_of_mem _ hx))]
    by_cases haj : j = a
    · subst haj
      rw [getD_set_self _ _ _ _ (hlt j (List.mem_cons_self _ _))]
      simp
    · rw [getD_set_ne _ _ _ _ _ haj]
      have hdec : decide (j ∈ a :: t) = decide (j ∈ t) :=
        decide_eq_decide.mpr
          ⟨fun h => (List.mem_cons.mp h).elim (fun h' => absurd h' haj) id,
           List.mem_cons_of_mem a⟩
      rw [hdec]

theorem Extends_refl (m n : ℕ) (alloc need : List (List ℤ)) (w : List ℤ)
    (f : List Bool) : Extends m n alloc need w f w f :=
  ⟨[], List.nodup_nil, fun j hj => absurd hj (List.not_mem_nil j), rfl, rfl, rfl⟩

theorem Extends_trans {m n : ℕ} {alloc need : List (List ℤ)}
    {w w' w'' : List ℤ} {f f' f'' : List Bool} (hlen : f.length = n)
    (h1 : Extends m n alloc need w f w' f')
    (h2 : Extends m n alloc need w' f' w'' f'') :
    Extends m n alloc need w f w'' f'' := by
  obtain ⟨o1, hnd1, hmem1, hok1, hw1, hf1⟩ := h1
  obtain ⟨o2, hnd2, hmem2, hok2, hw2, hf2⟩ := h2
  have hlt1 : ∀ x ∈ o1, x < f.length := fun x hx => by
    rw [hlen]; exact (hmem1 x hx).1
  have hmem2' : ∀ j ∈ o2, j < n ∧ f.getD j false = false := by
    intro j hj
    obtain ⟨hjn, hjf⟩ := hmem2 j hj
    rw [hf1, setTrue_getD f o1 j hlt1] at hjf
    exact ⟨hjn, (Bool.or_eq_false_iff.mp hjf).1⟩
  have hdisj : ∀ a ∈ o1, a ∉ o2 := by
    intro a ha hao2
    obtain ⟨-, hjf⟩ := hmem2 a hao2
    rw [hf1, setTrue_getD f o1 a hlt1] at hjf
    have := (Bool.or_eq_false_iff.mp hjf).2
    rw [decide_eq_false_iff_not] at this
    exact this ha
  refine ⟨o1 ++ o2, ?_, ?_, ?_, ?_, ?_⟩
  · exact List.nodup_append.mpr ⟨hnd1, hnd2, hdisj⟩
  · intro j hj
    rcases List.mem_append.mp hj with h | h
    · exact hmem1 j h
    · exact hmem2' j h
  · rw [chainOKb_append, hok1, Bool.true_and, ← hw1]
    exact hok2
  · rw [chainWork_append, ← hw1]
    exact hw2
  · rw [setTrue_append, ← hf1]
    exact hf2

theorem passStep_eq (m : ℕ) (alloc need : List (List ℤ)) (w : List ℤ)
    (f : List Bool) (p : Bool) (j : ℕ) :
    passStep m alloc need (w, f, p) j =
      if f.getD j false then (w, f, p)
      else if vleq m (mrow need j) w then
        (vadd m w (mrow alloc j), f.set j true, true)
      else (w, f, p) := rfl

theorem bankerPass_def (m n : ℕ) (alloc need : List (List ℤ)) (w : List ℤ)
    (f : List Bool) :
    bankerPass m n alloc need w f =
      (List.range n).foldl (passStep m alloc need) (w, f, false) := rfl

theorem bankerLoop_succ (m n : ℕ) (alloc need : List (List ℤ)) (fuel : ℕ)
    (w : List ℤ) (f : List Bool) :
    bankerLoop m n alloc need (fuel + 1) w f =
      if (bankerPass m n alloc need w f).2.2 then
        bankerLoop m n alloc need fuel (bankerPass m n alloc need w f).1
          (bankerPass m n alloc need w f).2.1
      else ((bankerPass m n alloc need w f).1,
        (bankerPass m n alloc need w f).2.1) := rfl

/-- Once the progress flag is set it stays set through the scan. -/
theorem foldl_passStep_prog (m : ℕ) (alloc need : List (List ℤ))
    (l : List ℕ) :
    ∀ st : List ℤ × List Bool × Bool, st.2.2 = true →
      (l.foldl (passStep m alloc need) st).2.2 = true := by
  induction l with
  | nil => exact fun st h => h
  | cons j t ih =>
    intro st h
    rw [List.foldl_cons]
    refine ih _ ?_
    unfold passStep
    by_cases h1 : st.2.1.getD j false = true
    · rw [if_pos h1]; exact h
    · rw [if_neg h1]
      by_cases h2 : vleq m (mrow need j) st.1 = true
      · rw [if_pos h2]
      · rw [if_neg h2]; exact h

/-- Finish flags only ever flip to true through the scan. -/
theorem foldl_passStep_finish_mono (m : ℕ) (alloc need : List (List ℤ))
    (l : List ℕ) :
    ∀ (st : List ℤ × List Bool × Bool) (x : ℕ), st.2.1.getD x false = true →
      ((l.foldl (passStep m alloc need) st).2.1).getD x false = true := by
  induction l with
  | nil => exact fun st x h => h
  | cons j t ih =>
    intro st x h
    rw [List.foldl_cons]
    refine ih _ x ?_
    unfold passStep
    by_cases h1 : st.2.1.getD j false = true
    · rw [if_pos h1]; exact h
    · rw [if_neg h1]
      by_cases h2 : vleq m (mrow need j) st.1 = true
      · rw [if_pos h2]
        show (st.2.1.set j true).getD x false = true
        by_cases hxj : x = j
        · subst hxj
          rw [getD_set_self _ _ _ _ (lt_length_of_getD h)]
        · rw [getD_set_ne _ _ _ _ _ hxj]; exact h
      · rw [if_neg h2]; exact h

/-- One scan extends the state along some feasible order. -/
theorem foldl_passStep_extends (m n : ℕ) (alloc need : List (List ℤ))
    (l : List ℕ) :
    ∀ (w : List ℤ) (f : List Bool) (p : Bool), (∀ j ∈ l, j < n) →
      f.length = n →
      Extends m n alloc need w f
        (l.foldl (passStep m alloc need) (w, f, p)).1
        (l.foldl (passStep m alloc need) (w, f, p)).2.1 := by
  induction l with
  | nil => intro w f p _ _; exact Extends_refl m n alloc need w f
  | cons j t ih =>
    intro w f p hl hlen
    rw [List.foldl_cons, passStep_eq]
    by_cases h1 : f.getD j false = true
    · rw [if_pos h1]
      exact ih w f p (fun x hx => hl x (List.mem_cons_of_mem _ hx)) hlen
    · rw [if_neg h1]
      by_cases h2 : vleq m (mrow need j) w = true
      · rw [if_pos h2]
        have hone : Extends m n alloc need w f
            (vadd m w (mrow alloc j)) (f.set j true) := by
          refine ⟨[j], List.nodup_singleton j, ?_, ?_, rfl, rfl⟩
          · intro x hx
            rw [List.mem_singleton.mp hx]
            exact ⟨hl j (List.mem_cons_self _ _), Bool.not_eq_true _ |>.mp h1⟩
          · show (vleq m (mrow need j) w && true) = true
            rw [h2, Bool.and_true]
        refine Extends_trans hlen hone ?_
        exact ih (vadd m w (mrow alloc j)) (f.set j true) true
          (fun x hx => hl x (List.mem_cons_of_mem _ hx))
          (by rw [List.length_set]; exact hlen)
      · rw [if_neg h2]
        exact ih w f p (fun x hx => hl x (List.mem_cons_of_mem _ hx)) hlen

/-- A scan with no progress leaves the state unchanged and certifies
that no still-unfinished process is enabled. -/
theorem foldl_passStep_stuck (m : ℕ) (alloc need : List (List ℤ))
    (l : List ℕ) :
    ∀ (w : List ℤ) (f : List Bool),
      (l.foldl (passStep m alloc need) (w, f, false)).2.2 = false →
      (l.foldl (passStep m alloc need) (w, f, false)) = (w, f, false) ∧
      ∀ j ∈ l, f.getD j false = false → vleq m (mrow need j) w = false := by
  induction l with
  | nil =>
    intro w f _
    exact ⟨rfl, fun j hj => absurd hj (List.not_mem_nil j)⟩
  | cons j t ih =>
    intro w f h
    rw [List.foldl_cons, passStep_eq] at h ⊢
    by_cases h1 : f.getD j false = true
    · rw [if_pos h1] at h ⊢
      obtain ⟨he, hrest⟩ := ih w f h
      refine ⟨he, fun x hx hxf => ?_⟩
      rcases List.mem_cons.mp hx with rfl | hx'
      · rw [hxf] at h1; exact Bool.noConfusion h1
      · exact hrest x hx' hxf
    · rw [if_neg h1] at h ⊢
      by_cases h2 : vleq m (mrow need j) w = true
      · rw [if_pos h2] at h
        have hp := foldl_passStep_prog m alloc need t
          (vadd m w (mrow alloc j), f.set j true, true) rfl
        rw [hp] at h
        exact Bool.noConfusion h
      · rw [if_neg h2] at h ⊢
        obtain ⟨he, hrest⟩ := ih w f h
        refine ⟨he, fun x hx hxf => ?_⟩
        rcases List.mem_cons.mp hx with rfl | hx'
        · exact Bool.not_eq_true _ |>.mp h2
        · exact hrest x hx' hxf

/-- A scan that reports progress flips some flag from false to true. -/
theorem foldl_passStep_progress (m n : ℕ) (alloc need : List (List ℤ))
    (l : List ℕ) :
    ∀ (w : List ℤ) (f : List Bool), (∀ j ∈ l, j < n) → f.length = n →
      (l.foldl (passStep m alloc need) (w, f, false)).2.2 = true →
      ∃ x, x < n ∧ f.getD x false = false ∧
        ((l.foldl (passStep m alloc need) (w, f, false)).2.1).getD x false = true := by
  induction l with
  | nil => intro w f _ _ h; exact Bool.noConfusion h
  | cons j t ih =>
    intro w f hl hlen h
    rw [List.foldl_cons, passStep_eq] at h ⊢
    by_cases h1 : f.getD j false = true
    · rw [if_pos h1] at h ⊢
      exact ih w f (fun x hx => hl x (List.mem_cons_of_mem _ hx)) hlen h
    · rw [if_neg h1] at h ⊢
      by_cases h2 : vleq m (mrow need j) w = true
      · rw [if_pos h2] at h ⊢
        refine ⟨j, hl j (List.mem_cons_self _ _), Bool.not_eq_true _ |>.mp h1, ?_⟩
        refine foldl_passStep_finish_mono m alloc need t _ j ?_
        show (f.set j true).getD j false = true
        have hjlen : j < f.length := by
          rw [hlen]; exact hl j (List.mem_cons_self _ _)
        rw [getD_set_self _ _ _ _ hjlen]
      · rw [if_neg h2] at h ⊢
        exact ih w f (fun x hx => hl x (List.mem_cons_of_mem _ hx)) hlen h

/-- Number of unfinished flags among the first `n`. -/
def unfinCount (n : ℕ) (f : List Bool) : ℕ :=
  ((Finset.range n).filter (fun j => f.getD j false = false)).card

theorem unfinCount_le (n : ℕ) (f : List Bool) : unfinCount n f ≤ n :=
  le_trans (Finset.card_filter_le _ _) (le_of_eq (Finset.card_range n))

theorem unfinCount_lt (n : ℕ) (f f' : List Bool)
    (hmono : ∀ x, f.getD x false = true → f'.getD x false = true)
    (j : ℕ) (hj : j < n) (hjf : f.getD j false = false)
    (hjf' : f'.getD j false = true) :
    unfinCount n f' < unfinCount n f := by
  have hsub : (Finset.range n).filter (fun x => f'.getD x false = false) ⊆
      (Finset.range n).filter (fun x => f.getD x false = false) := by
    intro x hx
    obtain ⟨hxr, hxf⟩ := Finset.mem_filter.mp hx
    refine Finset.mem_filter.mpr ⟨hxr, ?_⟩
    cases hfx : f.getD x false
    · rfl
    · rw [hmono x hfx] at hxf; exact Bool.noConfusion hxf
  refine Finset.card_lt_card ((Finset.ssubset_iff_of_subset hsub).mpr ?_)
  refine ⟨j, Finset.mem_filter.mpr ⟨Finset.mem_range.mpr hj, hjf⟩, fun hmem => ?_⟩
  have := (Finset.mem_filter.mp hmem).2
  rw [hjf'] at this
  exact Bool.noConfusion this

/-- The scan loop, run with enough fuel, extends the initial state
along a feasible order and ends stuck: no remaining unfinished process
has its need covered. -/
theorem bankerLoop_spec (m n : ℕ) (alloc need : List (List ℤ)) (fuel : ℕ) :
    ∀ (w : List ℤ) (f : List Bool), f.length = n → unfinCount n f < fuel →
      Extends m n alloc need w f (bankerLoop m n alloc need fuel w f).1
        (bankerLoop m n alloc need fuel w f).2 ∧
      (∀ j, j < n → ((bankerLoop m n alloc need fuel w f).2).getD j false = false →
        vleq m (mrow need j) (bankerLoop m n alloc need fuel w f).1 = false) ∧
      ((bankerLoop m n alloc need fuel w f).2).length = n := by
  induction fuel with
  | zero => intro w f _ hcount; exact absurd hcount (by omega)
  | succ fuel ih =>
    intro w f hlen hcount
    rw [bankerLoop_succ, bankerPass_def]
    cases hp : ((List.range n).foldl (passStep m alloc need) (w, f, false)).2.2 with
    | false =>
      rw [if_neg (by decide : ¬(false = true))]
      obtain ⟨heq, hstuck⟩ := foldl_passStep_stuck m alloc need (List.range n) w f hp
      rw [heq]
      refine ⟨Extends_refl m n alloc need w f, ?_, hlen⟩
      intro j hj hjf
      exact hstuck j (List.mem_range.mpr hj) hjf
    | true =>
      rw [if_pos rfl]
      have hext := foldl_passStep_extends m n alloc need (List.range n) w f false
        (fun x hx => List.mem_range.mp hx) hlen
      obtain ⟨x, hxn, hxf, hxf'⟩ := foldl_passStep_progress m n alloc need
        (List.range n) w f (fun x hx => List.mem_range.mp hx) hlen hp
      have hmono : ∀ y, f.getD y false = true →
          (((List.range n).foldl (passStep m alloc need) (w, f, false)).2.1).getD y false = true :=
        fun y hy => foldl_passStep_finish_mono m alloc need (List.range n) _ y hy
      have hlen' : (((List.range n).foldl (passStep m alloc need) (w, f, false)).2.1).length = n := by
        obtain ⟨ord, -, -, -, -, hf⟩ := hext
        rw [hf, setTrue_length]
        exact hlen
      have hcount' : unfinCount n
          (((List.range n).foldl (passStep m alloc need) (w, f, false)).2.1) < fuel := by
        have := unfinCount_lt n f _ hmono x hxn hxf hxf'
        omega
      obtain ⟨hext2, hstuck2, hlen2⟩ := ih _ _ hlen' hcount'
      exact ⟨Extends_trans hlen hext hext2, hstuck2, hlen2⟩

theorem chainWork_getI (m : ℕ) (alloc : List (List ℤ)) (ord : List ℕ) :
    ∀ (w : List ℤ) (k : ℕ), k < m →
      getI (chainWork m alloc w ord) k =
        getI w k + (ord.map (fun j => mget alloc j k)).sum := by
  induction ord with
  | nil => intro w k _; simp [chainWork]
  | cons j t ih =>
    intro w k hk
    show getI (chainWork m alloc (vadd m w (mrow alloc j)) t) k = _
    rw [ih _ k hk, getI_vadd _ _ hk]
    rw [show getI (mrow alloc j) k = mget alloc j k from rfl, List.map_cons,
      List.sum_cons]
    ring

theorem mem_take_imp (l : List ℕ) (idx u : ℕ) (h : u ∈ l.take idx) :
    ∃ i, i < idx ∧ l.get? i = some u := by
  obtain ⟨i, hi⟩ := List.mem_iff_get?.mp h
  obtain ⟨hlt, -⟩ := List.get?_eq_some.mp hi
  have hidx : i < idx := by
    rw [List.length_take] at hlt
    omega
  rw [List.get?_take hidx] at hi
  exact ⟨i, hidx, hi⟩

theorem drop_cons_of_get? (l : List ℕ) (idx j : ℕ) (h : l.get? idx = some j) :
    l.drop idx = j :: l.drop (idx + 1) := by
  obtain ⟨hlt, hget⟩ := List.get?_eq_some.mp h
  rw [List.drop_eq_get_cons hlt, hget]

/-- The Banker's fixed-point check succeeds exactly when some feasible
completion order of the not-initially-finished processes exists.  The
allocation matrix must be componentwise non-negative (true of every
tentative post-grant state reachable under the manager invariant). -/
theorem bankerCheck_iff (m n : ℕ) (alloc need : List (List ℤ))
    (work : List ℤ) (finish0 : List Bool)
    (hlen : finish0.length = n)
    (hpos : ∀ j, j < n → ∀ k, k < m → 0 ≤ mget alloc j k) :
    (bankerCheck m n work alloc need finish0 = true ↔
      ∃ ord, isCompletionOrder m n alloc need work finish0 ord) := by
  have hfuel : unfinCount n finish0 < n + 1 :=
    Nat.lt_succ_of_le (unfinCount_le n finish0)
  obtain ⟨hext, hstuck, hlenr⟩ :=
    bankerLoop_spec m n alloc need (n + 1) work finish0 hlen hfuel
  obtain ⟨G, hGnd, hGmem, hGok, hGw, hGf⟩ := hext
  have hGlt : ∀ x ∈ G, x < finish0.length := fun x hx => by
    rw [hlen]; exact (hGmem x hx).1
  constructor
  · intro hcheck
    have hcheck' : (List.range n).all
        (fun j => (bankerLoop m n alloc need (n + 1) work finish0).2.getD j false) =
        true := hcheck
    have hall : ∀ j, j < n →
        ((bankerLoop m n alloc need (n + 1) work finish0).2).getD j false = true :=
      fun j hj => List.all_eq_true.mp hcheck' j (List.mem_range.mpr hj)
    refine ⟨G, hGnd, ?_, hGok⟩
    intro j
    constructor
    · exact hGmem j
    · rintro ⟨hjn, hjf⟩
      have hj := hall j hjn
      rw [hGf, setTrue_getD finish0 G j hGlt, hjf] at hj
      simpa using hj
  · rintro ⟨ord, hoNd, hoMem, hoOk⟩
    have hfin : ∀ idx j, ord.get? idx = some j →
        ((bankerLoop m n alloc need (n + 1) work finish0).2).getD j false = true := by
      intro idx
      induction idx using Nat.strong_induction_on with
      | _ idx IH =>
        intro j hj
        have hjmem : j ∈ ord := List.get?_mem hj
        obtain ⟨hjn, hjf0⟩ := (hoMem j).mp hjmem
        have htakeG : ∀ u ∈ ord.take idx, u ∈ G := by
          intro u hu
          obtain ⟨i, hilt, hieq⟩ := mem_take_imp ord idx u hu
          have hufin := IH i hilt u hieq
          have humem : u ∈ ord := List.mem_of_mem_take hu
          obtain ⟨hun, huf0⟩ := (hoMem u).mp humem
          rw [hGf, setTrue_getD finish0 G u hGlt, huf0] at hufin
          simpa using hufin
        have hwork : ∀ k, k < m →
            getI (chainWork m alloc work (ord.take idx)) k ≤
              getI ((bankerLoop m n alloc need (n + 1) work finish0).1) k := by
          intro k hk
          rw [hGw, chainWork_getI m alloc _ _ k hk, chainWork_getI m alloc _ _ k hk]
          have hndtake : (ord.take idx).Nodup :=
            hoNd.sublist (List.take_sublist idx ord)
          rw [← List.sum_toFinset _ hndtake, ← List.sum_toFinset _ hGnd]
          have hsub : (ord.take idx).toFinset ⊆ G.toFinset := fun u hu =>
            List.mem_toFinset.mpr (htakeG u (List.mem_toFinset.mp hu))
          have hle : (ord.take idx).toFinset.sum (fun j => mget alloc j k) ≤
              G.toFinset.sum (fun j => mget alloc j k) :=
            Finset.sum_le_sum_of_subset_of_nonneg hsub
              (fun x hxG _ => hpos x (hGmem x (List.mem_toFinset.mp hxG)).1 k hk)
          omega
        have hchain : vleq m (mrow need j)
            (chainWork m alloc work (ord.take idx)) = true := by
          have hsplit : ord = ord.take idx ++ ord.drop idx :=
            (List.take_append_drop idx ord).symm
          have hok2 := hoOk
          rw [hsplit, chainOKb_append] at hok2
          obtain ⟨-, hok3⟩ := Bool.and_eq_true _ _ |>.mp hok2
          rw [drop_cons_of_get? ord idx j hj] at hok3
          exact (Bool.and_eq_true _ _ |>.mp hok3).1
        by_contra hjnotfin
        have hjf : ((bankerLoop m n alloc need (n + 1) work finish0).2).getD j false =
            false := Bool.not_eq_true _ |>.mp hjnotfin
        have hvfalse := hstuck j hjn hjf
        have hvtrue : vleq m (mrow need j)
            ((bankerLoop m n alloc need (n + 1) work finish0).1) = true := by
          rw [vleq_iff]
          intro k hk
          exact le_trans (vleq_iff.mp hchain k hk) (hwork k hk)
        rw [hvtrue] at hvfalse
        exact Bool.noConfusion hvfalse
    have hall : ∀ j, j < n →
        ((bankerLoop m n alloc need (n + 1) work finish0).2).getD j false = true := by
      intro j hjn
      cases hf0 : finish0.getD j false with
      | false =>
        obtain ⟨idx, hidx⟩ := List.mem_iff_get?.mp ((hoMem j).mpr ⟨hjn, hf0⟩)
        exact hfin idx j hidx
      | true =>
        rw [hGf, setTrue_getD finish0 G j hGlt, hf0]
        rfl
    show (List.range n).all
        (fun j => (bankerLoop m n alloc need (n + 1) work finish0).2.getD j false) =
        true
    exact List.all_eq_true.mpr fun x hx => hall x (List.mem_range.mp hx)

/-- C3: `_is_safe_after_grant` (embedded directly as the `work =
available - req` / tentative `alloc'`, `need'` / `finish[j] =
finished[j] or not alive[j]` initialisation followed by the
repeat-until-no-progress scan, `isSafeAfterGrant` above) returns true
iff, in the tentative post-grant state, some completion order of the
unfinished-and-alive processes exists in which every process can
eventually obtain its remaining need; the second conjunct identifies
the initially-unfinished set with the alive-and-unfinished
processes. -/
theorem c3_safe_iff_completion_order (s : RMState) (i : ℕ) (req : List ℤ)
    (hwf : WF s)
    (hnneg : ∀ j, j < s.n → ∀ k, k < s.m → 0 ≤ mget s.alloc j k)
    (hreq : ∀ k, k < s.m → 0 ≤ getI req k) :
    (isSafeAfterGrant s i req = true ↔
      ∃ ord, isCompletionOrder s.m s.n (tentAlloc s i req) (tentNeed s i req)
        (vsub s.m s.available req) (initFinish s) ord) ∧
    (∀ j, j < s.n → ((initFinish s).getD j false = false ↔
      s.alive.getD j false = true ∧ s.finished.getD j false = false)) := by
  constructor
  · refine bankerCheck_iff s.m s.n (tentAlloc s i req) (tentNeed s i req)
      (vsub s.m s.available req) (initFinish s) ?_ ?_
    · show ((List.range s.n).map _).length = s.n
      simp
    · intro j hjn k hk
      unfold tentAlloc
      by_cases hji : j = i
      · subst hji
        have hjal : j < s.alloc.length := by
          have := hwf.2.2.2.2.1
          have := hwf.2.2.2.1
          omega
        rw [mget_set_self _ _ _ _ hjal]
        rw [show (vadd s.m (mrow s.alloc j) req).getD k 0 =
          getI (vadd s.m (mrow s.alloc j) req) k from rfl]
        rw [getI_vadd _ _ hk,
          show getI (mrow s.alloc j) k = mget s.alloc j k from rfl]
        have h1 := hnneg j hjn k hk
        have h2 := hreq k hk
        omega
      · rw [mget_set_ne _ _ _ hji]
        exact hnneg j hjn k hk
  · intro j hjn
    show ((List.range s.n).map _).getD j false = false ↔ _
    rw [getD_mapRange _ _ hjn]
    constructor
    · intro h
      rcases Bool.or_eq_false_iff.mp h with ⟨h1, h2⟩
      refine ⟨?_, h1⟩
      cases hv : s.alive.getD j false
      · rw [hv] at h2
        exact Bool.noConfusion h2
      · rfl
    · rintro ⟨h1, h2⟩
      rw [h1, h2]
      rfl

/-- Witness for C3: the spec's avoidance scenario with the request
`[2,0,0]` by process 0. -/
theorem c3_witness :
    WF sAvoid ∧
    (∀ j, j < sAvoid.n → ∀ k, k < sAvoid.m → 0 ≤ mget sAvoid.alloc j k) ∧
    (∀ k, k < sAvoid.m → 0 ≤ getI [2, 0, 0] k) ∧
    ((isSafeAfterGrant sAvoid 0 [2, 0, 0] = true ↔
      ∃ ord, isCompletionOrder sAvoid.m sAvoid.n (tentAlloc sAvoid 0 [2, 0, 0])
        (tentNeed sAvoid 0 [2, 0, 0]) (vsub sAvoid.m sAvoid.available [2, 0, 0])
        (initFinish sAvoid) ord) ∧
     (∀ j, j < sAvoid.n → ((initFinish sAvoid).getD j false = false ↔
       sAvoid.alive.getD j false = true ∧ sAvoid.finished.getD j false = false))) :=
  ⟨by decide, by decide, by decide,
   c3_safe_iff_completion_order sAvoid 0 [2, 0, 0] (by decide) (by decide) (by decide)⟩

end Deadlock
